import Mathlib

/-
Verification of the mythos kernel's memory subsystem, ELF loader, program
stack, MBR partition-table library and UniqueLock primitive, against the
natural-language specification.  The definitions below are a shallow
embedding of the Rust source: machine addresses are `Nat` (all values of
interest are below 2^64 and overflow is modelled explicitly where the code
can hit it), page tables are partial maps from 4 KiB-aligned page start
addresses to `(frame, flags)` pairs, physical memory is a byte function,
and fallible operations return `Except`/paired error options mirroring the
Rust control flow (including mutations that persist past an error return).
-/

namespace Mythos

/-! ## Page-table flags (x86_64 PageTableFlags, the bits this code uses)

The source manipulates five flag bits: PRESENT, WRITABLE, USER_ACCESSIBLE,
NO_EXECUTE, and BIT_9 which `elf_loader.rs` repurposes as the internal
COPIED marker.  They are embedded as a record of booleans. -/

structure Flags where
  present : Bool
  writable : Bool
  userAccessible : Bool
  noExecute : Bool
  copied : Bool
deriving DecidableEq, Repr

/-- The flag union performed by `UserMemoryMapper::map_page`:
`flags |= PageTableFlags::USER_ACCESSIBLE`. -/
def withUser (f : Flags) : Flags := { f with userAccessible := true }

/-- Page size used throughout (`Size4KiB`). -/
def PAGE_SIZE : Nat := 4096

/-- `Page::containing_address` / `PhysFrame::containing_address`: align the
address down to a 4 KiB boundary. -/
def pageContaining (addr : Nat) : Nat := addr / 4096 * 4096

/-- `x86_64::align_up(addr, Size4KiB::SIZE)`. -/
def alignUp4K (addr : Nat) : Nat := (addr + 4095) / 4096 * 4096

/-! ## Memory-mapper state

`MState` bundles the live kernel page table (`pt`), the per-program
`MemoryContext` ledger (`localMap`, the `BTreeMap` of
`UserMemoryMapper::user_context`), physical memory as a byte function, and
the frame allocator.  `BootInfoFrameAllocator` is a bump cursor over the
usable-region frame list; inside the loader proofs the allocator is
abstracted as the list `free` of frame start addresses it will hand out
next (the bump allocator never reuses or reorders frames, so a list is a
faithful view).  The `MemoryContext`'s heap allocator is not modelled: no
claim touches it. -/

/-- The `local_map` of a `MemoryContext`: `BTreeMap<Page, (PhysFrame, PageTableFlags)>`
as an association list keyed by page start address. -/
abbrev MemoryContext := List (Nat × (Nat × Flags))

/-- `BTreeMap::insert`: replace the value at an existing key, otherwise add
the binding. -/
def ctxInsert : MemoryContext → Nat → (Nat × Flags) → MemoryContext
  | [], p, v => [(p, v)]
  | (q, w) :: rest, p, v =>
      if q = p then (p, v) :: rest else (q, w) :: ctxInsert rest p v

/-- `BTreeMap::remove` (the returned old value is discarded by the source). -/
def ctxRemove (m : MemoryContext) (p : Nat) : MemoryContext :=
  m.filter (fun e => decide (e.1 ≠ p))

/-- `BTreeMap` lookup. -/
def ctxLookup : MemoryContext → Nat → Option (Nat × Flags)
  | [], _ => none
  | (q, w) :: rest, p => if q = p then some w else ctxLookup rest p

structure MState where
  pt : Nat → Option (Nat × Flags)
  localMap : MemoryContext
  phys : Nat → Nat
  free : List Nat

inductive MapError where
  | alreadyMapped
  | frameAllocationFailed
deriving DecidableEq, Repr

inductive UnmapError where
  | pageNotMapped
deriving DecidableEq, Repr

/-! ## Kernel mapper operations (`KernelMemoryMapper`, memory.rs 154-172)

`map_page` calls `OffsetPageTable::map_to`, which installs a fresh leaf
entry and fails with `PageAlreadyMapped` when the leaf entry is already in
use, leaving the existing translation untouched; operations return the
(possibly unchanged) state alongside an optional error, matching the Rust
`&mut self` methods. -/

def kernelMapPage (s : MState) (page frame : Nat) (flags : Flags) :
    MState × Option MapError :=
  match s.pt page with
  | some _ => (s, some MapError.alreadyMapped)
  | none =>
      ({ s with pt := fun p => if p = page then some (frame, flags) else s.pt p },
       none)

/-- `KernelMemoryMapper::translate_page` (and the `Translate::translate`
queries in elf_loader.rs, which this kernel only ever applies to 4 KiB
leaf mappings). -/
def translatePage (s : MState) (page : Nat) : Option (Nat × Flags) := s.pt page

/-- `Mapper::unmap` on the kernel page table. -/
def kernelUnmapPage (s : MState) (page : Nat) : MState × Option UnmapError :=
  match s.pt page with
  | none => (s, some UnmapError.pageNotMapped)
  | some _ =>
      ({ s with pt := fun p => if p = page then none else s.pt p }, none)

/-- `Mapper::update_flags`: patch the flags of an existing leaf entry in
place, keeping its frame; fails if the page is not mapped. -/
def updateFlags (s : MState) (page : Nat) (flags : Flags) :
    MState × Option UnmapError :=
  match s.pt page with
  | none => (s, some UnmapError.pageNotMapped)
  | some (f, _) =>
      ({ s with pt := fun p => if p = page then some (f, flags) else s.pt p },
       none)

/-- `BootInfoFrameAllocator::allocate_frame` as seen by the loader: take
the next frame the bump allocator will produce. -/
def allocFrame (s : MState) : Option (Nat × MState) :=
  match s.free with
  | [] => none
  | f :: rest => some (f, { s with free := rest })

/-! ## User mapper operations (`UserMemoryMapper`, memory.rs 188-255)

`map_page` ORs in USER_ACCESSIBLE and records the binding in `local_map`
*before* invoking the kernel mapper, so the ledger mutation persists even
when the kernel map fails; `unmap_page` likewise removes the ledger entry
before the kernel unmap. -/

def userMapPage (s : MState) (page frame : Nat) (flags : Flags) :
    MState × Option MapError :=
  let flags := withUser flags
  let s := { s with localMap := ctxInsert s.localMap page (frame, flags) }
  kernelMapPage s page frame flags

def userUnmapPage (s : MState) (page : Nat) : MState × Option UnmapError :=
  let s := { s with localMap := ctxRemove s.localMap page }
  kernelUnmapPage s page

/-- `UserMemoryMapper::restore_context`: replay every recorded mapping of a
captured `MemoryContext` into the live kernel page tables via
`kernel_mapper.map_page`, aborting on the first error (`?` operator). -/
def restoreContext (s : MState) (ctx : MemoryContext) :
    Except MapError MState :=
  match ctx with
  | [] => Except.ok s
  | (page, frame, flags) :: rest =>
      match kernelMapPage s page frame flags with
      | (_, some e) => Except.error e
      | (s', none) => restoreContext s' rest

/-! ## Physical-memory byte operations used by the loader -/

/-- `core::ptr::write_bytes(dst, val, len)` on the physical window. -/
def writeBytesP (phys : Nat → Nat) (start len val : Nat) : Nat → Nat :=
  fun a => if start ≤ a ∧ a < start + len then val else phys a

/-- `core::ptr::copy_nonoverlapping(src, dst, 4096)`: duplicate one frame. -/
def copyFrameP (phys : Nat → Nat) (src dst : Nat) : Nat → Nat :=
  fun a => if dst ≤ a ∧ a < dst + 4096 then phys (src + (a - dst)) else phys a

/-- Little-endian u64 store at a physical address. -/
def writeU64LE (phys : Nat → Nat) (addr val : Nat) : Nat → Nat :=
  fun a => if addr ≤ a ∧ a < addr + 8 then val / 2 ^ (8 * (a - addr)) % 256 else phys a

/-- Little-endian u64 load from a physical address. -/
def readU64LE (phys : Nat → Nat) (addr : Nat) : Nat :=
  phys addr % 256 +
    256 * (phys (addr + 1) % 256 +
      256 * (phys (addr + 2) % 256 +
        256 * (phys (addr + 3) % 256 +
          256 * (phys (addr + 4) % 256 +
            256 * (phys (addr + 5) % 256 +
              256 * (phys (addr + 6) % 256 +
                256 * (phys (addr + 7) % 256)))))))

/-- Read one byte of virtual memory through the live page table, as the
running program would: translate the containing page, then index into the
mapped frame.  `none` when the page has no translation. -/
def virtReadByte (s : MState) (addr : Nat) : Option Nat :=
  match s.pt (pageContaining addr) with
  | some (f, _) => some (s.phys (f + addr % 4096))
  | none => none

/-! ## ELF loader (elf_loader.rs)

A `LOAD`/`TLS`/`GNU_RELRO` program header is embedded as its fields of
interest; the xmas_elf byte-level header parsing is library code and is
not re-verified here.  `bias` is `Inner::virtual_address_offset` and
`physBase` is `Inner::phys_addr` (the frame-aligned physical address the
ELF file image was copied to). -/

structure Segment where
  offset : Nat
  virtualAddr : Nat
  fileSize : Nat
  memSize : Nat
  isWrite : Bool
  isExecute : Bool
deriving DecidableEq, Repr

/-- `COPIED`: BIT_9, repurposed by the loader as the already-copied marker. -/
def COPIED (f : Flags) : Bool := f.copied

/-- Flags computed for a LOAD segment at elf_loader.rs 125-131: PRESENT,
plus NO_EXECUTE unless executable, plus WRITABLE if writable. -/
def segmentFlags (seg : Segment) : Flags :=
  { present := true
    writable := seg.isWrite
    userAccessible := false
    noExecute := !seg.isExecute
    copied := false }

/-- The inclusive 4 KiB range walk `range_inclusive(start, last)` of the
x86_64 crate, as the list of page/frame start addresses; empty when
`last < start` (both arguments are 4 KiB aligned wherever this is used). -/
def pageListIncl (start last : Nat) : List Nat :=
  (List.range (if last < start then 0 else (last - start) / 4096 + 1)).map
    (fun i => start + 4096 * i)

/-- The frame-to-page mapping loop of `Inner::handle_load_segment`
(elf_loader.rs 134-142): map each file-image frame at the corresponding
destination page, failing with the loader's error string if `map_to`
fails. -/
def mapPagesToFrames (s : MState) (pairs : List (Nat × Nat)) (flags : Flags) :
    Except String MState :=
  match pairs with
  | [] => Except.ok s
  | (page, frame) :: rest =>
      match userMapPage s page frame flags with
      | (_, some _) => Except.error "map_to failed"
      | (s', none) => mapPagesToFrames s' rest flags

/-- `Inner::make_mut` (elf_loader.rs 260-304): translate the page; if its
flags already carry COPIED return the mapped frame unchanged; otherwise
allocate a fresh frame, copy the 4096 bytes over, unmap the page through
the user mapper and remap it to the new frame with COPIED set.  The
source's panics (unmapped page, failed allocation, failed unmap/map
unwraps) become errors. -/
def makeMut (s : MState) (page : Nat) : Except String (Nat × MState) :=
  match s.pt page with
  | none => Except.error "page is not mapped"
  | some (frame, flags) =>
      if COPIED flags then Except.ok (frame, s)
      else
        match allocFrame s with
        | none => Except.error "frame allocation failed"
        | some (newFrame, s1) =>
            let s2 := { s1 with phys := copyFrameP s1.phys frame newFrame }
            match userUnmapPage s2 page with
            | (_, some _) => Except.error "unmap failed"
            | (s3, none) =>
                let newFlags := { flags with copied := true }
                match userMapPage s3 page newFrame newFlags with
                | (_, some _) => Except.error "map failed"
                | (s4, none) => Except.ok (newFrame, s4)

/-- The fresh-frame loop of `Inner::handle_bss_section` (elf_loader.rs
218-239): for each page, allocate a frame, zero it, and map it. -/
def zeroFreshPages (s : MState) (pages : List Nat) (flags : Flags) :
    Except String MState :=
  match pages with
  | [] => Except.ok s
  | page :: rest =>
      match allocFrame s with
      | none => Except.error "frame allocation failed"
      | some (frame, s1) =>
          let s2 := { s1 with phys := writeBytesP s1.phys frame 4096 0 }
          match userMapPage s2 page frame flags with
          | (_, some _) => Except.error "failed to map new frame for bss memory"
          | (s3, none) => zeroFreshPages s3 rest flags

/-- `Inner::handle_bss_section` (elf_loader.rs 153-242).  When the zero
start is not page-aligned, the last file-backed page is first privately
duplicated via `make_mut` and the duplicate's tail zeroed; then every
remaining bss page receives a fresh zeroed frame.  Note the loop bound is
`Page::containing_address(zero_end)` exactly as in the source (not
`zero_end - 1`). -/
def handleBssSection (s : MState) (virtStart fileSize memSize : Nat)
    (segFlags : Flags) : Except String MState :=
  let zeroStart := virtStart + fileSize
  let zeroEnd := virtStart + memSize
  let dataBytesBeforeZero := zeroStart % 4096
  let step1 : Except String MState :=
    if dataBytesBeforeZero ≠ 0 then
      let lastPage := pageContaining (virtStart + fileSize - 1)
      match makeMut s lastPage with
      | Except.error e => Except.error e
      | Except.ok (newFrame, s1) =>
          Except.ok { s1 with
            phys := writeBytesP s1.phys (newFrame + dataBytesBeforeZero)
              (4096 - dataBytesBeforeZero) 0 }
    else Except.ok s
  match step1 with
  | Except.error e => Except.error e
  | Except.ok s1 =>
      zeroFreshPages s1
        (pageListIncl (alignUp4K zeroStart) (pageContaining zeroEnd)) segFlags

/-- `Inner::handle_load_segment` (elf_loader.rs 116-151): map the file
image's frames 1:1 at the destination pages, then handle the bss tail when
`mem_size > file_size`. -/
def handleLoadSegment (s : MState) (physBase bias : Nat) (seg : Segment) :
    Except String MState :=
  let physStartAddr := physBase + seg.offset
  let startFrame := pageContaining physStartAddr
  let startPage := pageContaining (bias + seg.virtualAddr)
  let frameCount :=
    if physStartAddr + seg.fileSize = 0 then 0
    else
      let endFrame := pageContaining (physStartAddr + seg.fileSize - 1)
      if endFrame < startFrame then 0 else (endFrame - startFrame) / 4096 + 1
  let pairs := (List.range frameCount).map
    (fun i => (startPage + 4096 * i, startFrame + 4096 * i))
  match mapPagesToFrames s pairs (segmentFlags seg) with
  | Except.error e => Except.error e
  | Except.ok s1 =>
      if seg.memSize > seg.fileSize then
        handleBssSection s1 (bias + seg.virtualAddr) seg.fileSize seg.memSize
          (segmentFlags seg)
      else Except.ok s1

/-- View: the (page, frame) pairs `handle_load_segment` maps for a
segment with `file_size > 0` (the guard cases of the source collapse,
since `phys_start + file_size > 0` and the end frame is not below the
start frame). -/
def segFilePairs (physBase bias : Nat) (seg : Segment) : List (Nat × Nat) :=
  (List.range ((pageContaining (physBase + seg.offset + seg.fileSize - 1) -
      pageContaining (physBase + seg.offset)) / 4096 + 1)).map
    (fun i => (pageContaining (bias + seg.virtualAddr) + 4096 * i,
      pageContaining (physBase + seg.offset) + 4096 * i))

/-- View: the pages the bss fresh-frame loop walks
(`align_up(zero_start)` through `containing(zero_end)` inclusive). -/
def bssPages (bias : Nat) (seg : Segment) : List Nat :=
  pageListIncl (alignUp4K (bias + seg.virtualAddr + seg.fileSize))
    (pageContaining (bias + seg.virtualAddr + seg.memSize))

/-! ## Dynamic segment / relocations (elf_loader.rs 352-467) -/

/-- A parsed `Rela<u64>` entry: `r_offset`, the symbol-table index
(`r_info >> 32`), the relocation type (`r_info & 0xffffffff`) and
`r_addend`, all u64-valued. -/
structure Rela where
  offset : Nat
  symIdx : Nat
  relType : Nat
  addend : Nat
deriving DecidableEq, Repr

/-- Parse a `Rela<u64>` from its 24 raw bytes in physical memory (the
relocation table lives inside the ELF file image and is read through the
physical-memory window). -/
def parseRela (phys : Nat → Nat) (base : Nat) : Rela :=
  let info := readU64LE phys (base + 8)
  { offset := readU64LE phys base
    symIdx := info / 2 ^ 32
    relType := info % 2 ^ 32
    addend := readU64LE phys (base + 16) }

/-- `check_is_in_load` (elf_loader.rs 508-520), over the LOAD program
headers in file order. -/
def checkIsInLoad (loadSegs : List Segment) (virtOffset : Nat) : Bool :=
  loadSegs.any (fun seg =>
    decide (seg.virtualAddr ≤ virtOffset) &&
      decide (virtOffset - seg.virtualAddr < seg.fileSize))

/-- Application of one relocation entry (the loop body at elf_loader.rs
429-464).  The symbol-table index is asserted to be zero first; only type
8 (`R_AMD64_RELATIVE`) is implemented and every other type panics with an
unimplemented-relocation error.  For type 8: the destination must lie in a
LOAD segment's file bytes, `value = virtual_address_offset + addend` is a
checked u64 add (panic on overflow), the destination must be 8-aligned,
and the store goes through `make_mut` into the privately copied frame.
`addr` is a plain u64 add, hence reduced mod 2^64. -/
def applyRela (s : MState) (loadSegs : List Segment) (bias : Nat) (r : Rela) :
    Except String MState :=
  if r.symIdx ≠ 0 then
    Except.error "relocations using the symbol table are not supported"
  else if r.relType = 8 then
    if checkIsInLoad loadSegs r.offset then
      let addr := (bias + r.offset) % 2 ^ 64
      if bias + r.addend < 2 ^ 64 then
        if addr % 8 ≠ 0 then
          Except.error "destination of relocation is not aligned"
        else
          let value := bias + r.addend
          let page := pageContaining addr
          let offsetInPage := addr - page
          match makeMut s page with
          | Except.error e => Except.error e
          | Except.ok (newFrame, s1) =>
              Except.ok { s1 with
                phys := writeU64LE s1.phys (newFrame + offsetInPage) value }
      else Except.error "checked_add overflowed"
    else Except.error "offset is not in load segment"
  else Except.error "relocation type not supported"

/-- The relocation loop: each entry is parsed from the file image at its
table slot and applied in order. -/
def applyRelas (s : MState) (loadSegs : List Segment) (bias : Nat)
    (slots : List Nat) : Except String MState :=
  match slots with
  | [] => Except.ok s
  | a :: rest =>
      match applyRela s loadSegs bias (parseRela s.phys a) with
      | Except.error e => Except.error e
      | Except.ok s1 => applyRelas s1 loadSegs bias rest

/-- A `DYNAMIC` segment entry, classified by the three tags the loader
inspects (`Rela`, `RelaSize`, `RelaEnt`); every other tag is skipped. -/
inductive DynEntry where
  | rela (ptr : Nat)
  | relaSize (val : Nat)
  | relaEnt (val : Nat)
  | otherTag
deriving DecidableEq, Repr

/-- The tag scan of `handle_dynamic_segment` (elf_loader.rs 364-394):
collect the unique `Rela`/`RelaSize`/`RelaEnt` values, rejecting
duplicates. -/
def scanDynamic : List DynEntry → Option Nat → Option Nat → Option Nat →
    Except String (Option Nat × Option Nat × Option Nat)
  | [], r, sz, ent => Except.ok (r, sz, ent)
  | DynEntry.rela p :: rest, r, sz, ent =>
      if r.isSome then
        Except.error "Dynamic section contains more than one Rela entry"
      else scanDynamic rest (some p) sz ent
  | DynEntry.relaSize v :: rest, r, sz, ent =>
      if sz.isSome then
        Except.error "Dynamic section contains more than one RelaSize entry"
      else scanDynamic rest r (some v) ent
  | DynEntry.relaEnt v :: rest, r, sz, ent =>
      if ent.isSome then
        Except.error "Dynamic section contains more than one RelaEnt entry"
      else scanDynamic rest r sz (some v)
  | DynEntry.otherTag :: rest, r, sz, ent => scanDynamic rest r sz ent

/-- `Inner::handle_dynamic_segment` (elf_loader.rs 352-467): scan the
dynamic entries; with no `Rela` the segment is a no-op unless `RelaSize`
or `RelaEnt` appear; otherwise compute the entry count
(`total_size / entry_size`, a u64 division that panics on zero), check
the table lies within the file image, and apply every entry.
`fileLen` is the byte length of the ELF image at `physBase`. -/
def handleDynamicSegment (s : MState) (loadSegs : List Segment)
    (bias physBase fileLen : Nat) (dyn : List DynEntry) :
    Except String MState :=
  match scanDynamic dyn none none none with
  | Except.error e => Except.error e
  | Except.ok (rela?, relaSize?, relaEnt?) =>
      match rela? with
      | none =>
          if relaSize?.isSome || relaEnt?.isSome then
            Except.error "Rela entry is missing but RelaSize or RelaEnt have been provided"
          else Except.ok s
      | some offset =>
          match relaSize? with
          | none => Except.error "RelaSize entry is missing"
          | some totalSize =>
              match relaEnt? with
              | none => Except.error "RelaEnt entry is missing"
              | some entrySize =>
                  if entrySize = 0 then Except.error "attempt to divide by zero"
                  else
                    let entries := totalSize / entrySize
                    if offset + 24 * entries ≤ fileLen then
                      applyRelas s loadSegs bias
                        ((List.range entries).map
                          (fun i => physBase + offset + 24 * i))
                    else Except.error "the relocation table must end in the elf file"

/-! ## RELRO and the copied-flag cleanup (elf_loader.rs 474-504, 307-342) -/

/-- The page walk shared by `handle_relro_segment` and
`remove_copied_flags`: `start = virtual_address_offset + virtual_addr`,
`end = start + mem_size`, pages from `containing(start)` to
`containing(end - 1)` inclusive. -/
def segPages (bias : Nat) (seg : Segment) : List Nat :=
  pageListIncl (pageContaining (bias + seg.virtualAddr))
    (pageContaining (bias + seg.virtualAddr + seg.memSize - 1))

/-- The per-page body of `handle_relro_segment`: translate the page (panic
if unmapped) and, when WRITABLE is set, clear it in place via
`update_flags` — the frame and the `MemoryContext` ledger are untouched. -/
def relroPageStep (s : MState) (page : Nat) : Except String MState :=
  match s.pt page with
  | none => Except.error "has the ELF file not been mapped correctly?"
  | some (f, flags) =>
      if flags.writable then
        Except.ok { s with
          pt := fun p =>
            if p = page then some (f, { flags with writable := false })
            else s.pt p }
      else Except.ok s

def relroPagesGo (s : MState) (pages : List Nat) : Except String MState :=
  match pages with
  | [] => Except.ok s
  | page :: rest =>
      match relroPageStep s page with
      | Except.error e => Except.error e
      | Except.ok s1 => relroPagesGo s1 rest

/-- `Inner::handle_relro_segment` (elf_loader.rs 474-504). -/
def handleRelroSegment (s : MState) (bias : Nat) (seg : Segment) :
    Except String MState :=
  relroPagesGo s (segPages bias seg)

/-- Modelled from the spec (sections 4.3 and 4.5 wording): the variant of
RELRO stripping the spec asserts — for every page of the segment,
translate it, unmap it, and remap it through the user mapper with the
WRITABLE flag removed (a full remap, updating the `MemoryContext` ledger,
rather than an in-place flag patch).  Defined only to compare against
`handleRelroSegment`, which is what the source actually does. -/
def relroRemapSpecStep (s : MState) (page : Nat) : Except String MState :=
  match s.pt page with
  | none => Except.error "has the ELF file not been mapped correctly?"
  | some (f, flags) =>
      if flags.writable then
        match userUnmapPage s page with
        | (_, some _) => Except.error "unmap failed"
        | (s1, none) =>
            match userMapPage s1 page f { flags with writable := false } with
            | (_, some _) => Except.error "map failed"
            | (s2, none) => Except.ok s2
      else Except.ok s

def relroRemapSpecGo (s : MState) : List Nat → Except String MState
  | [] => Except.ok s
  | page :: rest =>
      match relroRemapSpecStep s page with
      | Except.error e => Except.error e
      | Except.ok s1 => relroRemapSpecGo s1 rest

def handleRelroSegmentSpec (s : MState) (bias : Nat) (seg : Segment) :
    Except String MState :=
  relroRemapSpecGo s (segPages bias seg)

/-- The per-page body of `Inner::remove_copied_flags` (elf_loader.rs
315-338): translate (panic if unmapped) and strip COPIED in place when
present. -/
def removeCopiedPageStep (s : MState) (page : Nat) : Except String MState :=
  match s.pt page with
  | none => Except.error "has the ELF file not been mapped correctly?"
  | some (f, flags) =>
      if flags.copied then
        Except.ok { s with
          pt := fun p =>
            if p = page then some (f, { flags with copied := false })
            else s.pt p }
      else Except.ok s

def removeCopiedPagesGo (s : MState) (pages : List Nat) :
    Except String MState :=
  match pages with
  | [] => Except.ok s
  | page :: rest =>
      match removeCopiedPageStep s page with
      | Except.error e => Except.error e
      | Except.ok s1 => removeCopiedPagesGo s1 rest

/-- `Inner::remove_copied_flags` restricted to one LOAD segment's page
range (the source iterates this body over every LOAD program header). -/
def removeCopiedFlagsSeg (s : MState) (bias : Nat) (seg : Segment) :
    Except String MState :=
  removeCopiedPagesGo s (segPages bias seg)

/-- The tail of `Loader::load_segments` after all relocations have been
applied (elf_loader.rs 99-106): the RELRO pass over every `GNU_RELRO`
program header, followed by the copied-flag cleanup over every `LOAD`
program header. -/
def relroThenCleanup (s : MState) (bias : Nat)
    (relros loads : List Segment) : Except String MState :=
  let relroPhase := relros.foldlM (fun st seg => handleRelroSegment st bias seg) s
  match relroPhase with
  | Except.error e => Except.error e
  | Except.ok s1 =>
      loads.foldlM (fun st seg => removeCopiedFlagsSeg st bias seg) s1

/-! ## Sequences of user-mapper calls (for the MemoryContext ledger claims) -/

inductive MapOp where
  | map (page frame : Nat) (flags : Flags)
  | unmap (page : Nat)
deriving DecidableEq, Repr

def runOp (s : MState) : MapOp → MState × Bool
  | MapOp.map p f fl =>
      let r := userMapPage s p f fl
      (r.1, r.2.isNone)
  | MapOp.unmap p =>
      let r := userUnmapPage s p
      (r.1, r.2.isNone)

/-- Run a sequence of `map_page`/`unmap_page` calls on the user mapper,
returning the final state and whether every call succeeded. -/
def runOps (s : MState) : List MapOp → MState × Bool
  | [] => (s, true)
  | op :: rest =>
      let r := runOp s op
      let r2 := runOps r.1 rest
      (r2.1, r.2 && r2.2)

/-- Modelled from the spec: the ledger contents the spec asserts the
`MemoryContext` holds after a call sequence — exactly the pages mapped and
not subsequently unmapped, each with the user-augmented flags of its
latest map.  Compared against the actual `localMap`. -/
def expectedLocal : List MapOp → (Nat → Option (Nat × Flags)) →
    Nat → Option (Nat × Flags)
  | [], acc => acc
  | MapOp.map p f fl :: rest, acc =>
      expectedLocal rest (fun q => if q = p then some (f, withUser fl) else acc q)
  | MapOp.unmap p :: rest, acc =>
      expectedLocal rest (fun q => if q = p then none else acc q)

/-! ## Physical frame allocator (`BootInfoFrameAllocator`, memory.rs 16-47) -/

/-- A bootloader `MemoryRegion`: a half-open physical address range
`[start, stop)` tagged usable or not (`MemoryRegionKind::Usable`). -/
structure MemoryRegion where
  start : Nat
  stop : Nat
  usable : Bool
deriving DecidableEq, Repr

/-- `(start..stop).step_by(4096)`. -/
def stepBy4096 (start stop : Nat) : List Nat :=
  (List.range ((stop - start + 4095) / 4096)).map (fun i => start + 4096 * i)

/-- `BootInfoFrameAllocator::usable_frames`: filter to usable regions,
expand each to its stepped address sequence, and take the containing frame
of each address. -/
def usableFrames (regions : List MemoryRegion) : List Nat :=
  (regions.filter (fun r => r.usable)).flatMap
    (fun r => (stepBy4096 r.start r.stop).map pageContaining)

/-- `allocate_frame`: the frame at the cursor (the iterator is rebuilt on
every call, so `nth` is a pure index), and the incremented cursor. -/
def allocateFrameBump (regions : List MemoryRegion) (next : Nat) :
    Option Nat × Nat :=
  ((usableFrames regions).get? next, next + 1)

/-! ## Program stack (program.rs)

`UserProgram` records are kept in the `PROGRAM_STACK` vector (top at the
end).  The screen stack's contents are presentation logic (excluded by the
spec as an external collaborator); only its depth is tracked so that
`pop_program`'s screen bookkeeping stays visible. -/

structure UserProgram where
  context : MemoryContext
  stack : Nat
  hasScreen : Bool
  confirm : Bool

structure KState where
  programStack : List UserProgram
  screenCount : Nat

/-- `pop_program` (program.rs 63-70): pop the top record (panicking when
empty) and drop it; its memory context is discarded and nothing is
unmapped ("TODO reclaim memory used by the program").  If the program had
a screen, the screen stack is popped. -/
def popProgram (ks : KState) : Except String KState :=
  match ks.programStack.getLast? with
  | none => Except.error "pop on empty program stack"
  | some p =>
      let ks1 : KState := { ks with programStack := ks.programStack.dropLast }
      if p.hasScreen then
        Except.ok { ks1 with screenCount := ks1.screenCount - 1 }
      else Except.ok ks1

inductive ExitOutcome where
  | resumed (stackPtr : Nat)
  | shutdown
deriving DecidableEq, Repr

/-- `current_program_exit` (program.rs 95-107): pop the exiting program;
if a program remains, replay its captured context via `restore_context`
(the `.unwrap()` panics when that fails) and resume at its saved stack
pointer; otherwise shut the system down (`hlt_loop`). -/
def currentProgramExit (ks : KState) (ms : MState) :
    Except String (KState × MState × ExitOutcome) :=
  match popProgram ks with
  | Except.error e => Except.error e
  | Except.ok ks1 =>
      match ks1.programStack.getLast? with
      | some current =>
          match restoreContext ms current.context with
          | Except.error _ => Except.error "restore_context failed"
          | Except.ok ms1 =>
              Except.ok (ks1, ms1, ExitOutcome.resumed current.stack)
      | none => Except.ok (ks1, ms, ExitOutcome.shutdown)

/-- `current_program_notify` (program.rs 124-132): try to take the program
stack's guard; when it is already held, or no program is running, return
`false` without touching anything; otherwise set the top program's confirm
flag and report success.  `stackLockHeld` is whether `PROGRAM_STACK`'s
guard is currently held by an interrupted mutation. -/
def currentProgramNotify (stackLockHeld : Bool) (ks : KState) :
    KState × Bool :=
  if stackLockHeld then (ks, false)
  else
    match ks.programStack.getLast? with
    | some p =>
        ({ ks with programStack :=
            ks.programStack.dropLast ++ [{ p with confirm := true }] }, true)
    | none => (ks, false)

/-! ## UniqueLock (libraries/uniquelock, lib.rs 18-38) -/

structure LockError where
  name : String
deriving DecidableEq, Repr

structure UniqueLock where
  name : String
  held : Bool
deriving DecidableEq, Repr

/-- `UniqueLock::lock`: a single `try_lock` attempt — when the guard is
already held the call returns `Err(LockError(name))` immediately (there is
no loop, wait or spin in the source); otherwise the guard is acquired. -/
def UniqueLock.lock (l : UniqueLock) : Except LockError UniqueLock :=
  if l.held then Except.error { name := l.name }
  else Except.ok { l with held := true }

/-! ## MBR partition table (libraries/mbr) -/

inductive PartitionType where
  | unused
  | unknown (t : Nat)
  | fat12 (t : Nat)
  | fat16 (t : Nat)
  | fat32 (t : Nat)
  | linuxExt (t : Nat)
  | hfsPlus (t : Nat)
  | iso9660 (t : Nat)
  | ntfsExfat (t : Nat)
deriving DecidableEq, Repr

/-- `PartitionType::from_mbr_tag_byte` (partition.rs 17-28). -/
def PartitionType.fromMbrTagByte (tag : Nat) : PartitionType :=
  if tag = 0x0 then PartitionType.unused
  else if tag = 0x01 then PartitionType.fat12 tag
  else if tag = 0x04 ∨ tag = 0x06 ∨ tag = 0x0e then PartitionType.fat16 tag
  else if tag = 0x0b ∨ tag = 0x0c ∨ tag = 0x1b ∨ tag = 0x1c then
    PartitionType.fat32 tag
  else if tag = 0x83 then PartitionType.linuxExt tag
  else if tag = 0x07 then PartitionType.ntfsExfat tag
  else if tag = 0xaf then PartitionType.hfsPlus tag
  else PartitionType.unknown tag

/-- `PartitionType::to_mbr_tag_byte` (partition.rs 31-43). -/
def PartitionType.toMbrTagByte : PartitionType → Nat
  | PartitionType.unused => 0
  | PartitionType.unknown t => t
  | PartitionType.fat12 t => t
  | PartitionType.fat16 t => t
  | PartitionType.fat32 t => t
  | PartitionType.linuxExt t => t
  | PartitionType.hfsPlus t => t
  | PartitionType.iso9660 t => t
  | PartitionType.ntfsExfat t => t

structure PartitionTableEntry where
  bootable : Bool
  partitionType : PartitionType
  logicalBlockAddress : Nat
  sectorCount : Nat
deriving DecidableEq, Repr

/-- A raw byte buffer (`&[u8]`): a length and the u8 byte at each index
below it. -/
structure ByteBuffer where
  len : Nat
  data : Nat → Nat

inductive MbrError where
  | bufferWrongSize (expected actual : Nat)
  | invalidSuffix (b0 b1 : Nat)
deriving DecidableEq, Repr

structure MasterBootRecord where
  entries : Fin 4 → PartitionTableEntry

def readU32LE (d : Nat → Nat) (addr : Nat) : Nat :=
  d addr % 256 +
    256 * (d (addr + 1) % 256 +
      256 * (d (addr + 2) % 256 + 256 * (d (addr + 3) % 256)))

def writeU32LE (d : Nat → Nat) (addr val : Nat) : Nat → Nat :=
  fun a => if addr ≤ a ∧ a < addr + 4 then val / 2 ^ (8 * (a - addr)) % 256 else d a

/-- One iteration of the `from_bytes` entry loop (lib.rs 50-61). -/
def parseEntry (d : Nat → Nat) (offset : Nat) : PartitionTableEntry :=
  { bootable := decide (d offset % 256 ≠ 0)
    partitionType := PartitionType.fromMbrTagByte (d (offset + 4) % 256)
    logicalBlockAddress := readU32LE d (offset + 8)
    sectorCount := readU32LE d (offset + 12) }

/-- `MasterBootRecord::from_bytes` (lib.rs 37-63): reject buffers shorter
than 512 bytes, then buffers whose bytes 510-511 are not `0x55 0xaa`, then
parse the four 16-byte entries starting at offset 446. -/
def MasterBootRecord.fromBytes (buf : ByteBuffer) :
    Except MbrError MasterBootRecord :=
  if buf.len < 512 then
    Except.error (MbrError.bufferWrongSize 512 buf.len)
  else if ¬(buf.data 510 % 256 = 0x55 ∧ buf.data 511 % 256 = 0xaa) then
    Except.error (MbrError.invalidSuffix (buf.data 510 % 256) (buf.data 511 % 256))
  else
    Except.ok { entries := fun i => parseEntry buf.data (446 + 16 * i.val) }

/-- One iteration of the `serialize` entry loop (lib.rs 85-98): the
bootable byte, the tag byte, and the two little-endian u32 fields (the CHS
bytes in between are left untouched, as in the source). -/
def serializeEntry (d : Nat → Nat) (offset : Nat) (e : PartitionTableEntry) :
    Nat → Nat :=
  let d1 := fun a => if a = offset then (if e.bootable then 0x80 else 0x00) else d a
  let d2 := fun a => if a = offset + 4 then e.partitionType.toMbrTagByte % 256 else d1 a
  writeU32LE (writeU32LE d2 (offset + 8) e.logicalBlockAddress)
    (offset + 12) e.sectorCount

/-- `MasterBootRecord::serialize` (lib.rs 73-100): reject buffers shorter
than 512 bytes, write the `0x55 0xaa` suffix at bytes 510-511, then write
the four entries at offsets 446, 462, 478, 494. -/
def MasterBootRecord.serialize (mbr : MasterBootRecord) (buf : ByteBuffer) :
    Except MbrError ByteBuffer :=
  if buf.len < 512 then
    Except.error (MbrError.bufferWrongSize 512 buf.len)
  else
    let d0 := fun a =>
      if a = 510 then 0x55 else if a = 511 then 0xaa else buf.data a
    let d1 := serializeEntry d0 446 (mbr.entries 0)
    let d2 := serializeEntry d1 462 (mbr.entries 1)
    let d3 := serializeEntry d2 478 (mbr.entries 2)
    let d4 := serializeEntry d3 494 (mbr.entries 3)
    Except.ok { buf with data := d4 }

/-! # Theorems -/

/-- C9: `UniqueLock::lock` on a held guard returns the contention error at
once (a single `try_lock`, never a blocking wait), `lock` on an unheld
guard acquires it, and `current_program_notify` recovers from the
contention error by skipping the confirm update and reporting `false`
instead of waiting. -/
theorem uniqueLock_never_blocks :
    (∀ l : UniqueLock, l.held = true →
      l.lock = Except.error { name := l.name }) ∧
    (∀ l : UniqueLock, l.held = false →
      l.lock = Except.ok { l with held := true }) ∧
    (∀ ks : KState, currentProgramNotify true ks = (ks, false)) := by
  refine ⟨fun l h => ?_, fun l h => ?_, fun ks => ?_⟩
  · simp [UniqueLock.lock, h]
  · simp [UniqueLock.lock, h]
  · simp [currentProgramNotify]

theorem uniqueLock_never_blocks_witness :
    UniqueLock.lock { name := "program stack", held := true } =
        Except.error { name := "program stack" } ∧
      UniqueLock.lock { name := "program stack", held := false } =
        Except.ok { name := "program stack", held := true } ∧
      currentProgramNotify true { programStack := [], screenCount := 0 } =
        ({ programStack := [], screenCount := 0 }, false) :=
  ⟨uniqueLock_never_blocks.1 _ rfl, uniqueLock_never_blocks.2.1 _ rfl,
    uniqueLock_never_blocks.2.2 _⟩

/-- Helper: a successful `make_mut` leaves the page mapped to the
returned frame with the COPIED flag set. -/
theorem makeMut_ok_copied {s : MState} {page f' : Nat} {s' : MState}
    (h : makeMut s page = Except.ok (f', s')) :
    ∃ fl, s'.pt page = some (f', fl) ∧ COPIED fl = true := by
  cases hpt : s.pt page with
  | none => simp [makeMut, hpt] at h
  | some e =>
      obtain ⟨frame, flags⟩ := e
      by_cases hcop : COPIED flags = true
      · rw [makeMut, hpt] at h
        simp only [hcop, if_true, Except.ok.injEq, Prod.mk.injEq] at h
        obtain ⟨h1, h2⟩ := h
        subst h1
        exact ⟨flags, by rw [← h2]; exact hpt, hcop⟩
      · cases hfree : s.free with
        | nil => simp [makeMut, hpt, hcop, allocFrame, hfree] at h
        | cons nf rest =>
            rw [makeMut, hpt] at h
            simp only [hcop, if_false, allocFrame, hfree, userUnmapPage,
              kernelUnmapPage, userMapPage, kernelMapPage, withUser, hpt,
              Bool.false_eq_true, Except.ok.injEq, Prod.mk.injEq,
              ite_true, if_pos rfl] at h
            obtain ⟨h1, h2⟩ := h
            subst h1
            refine ⟨{ flags with userAccessible := true, copied := true },
              ?_, rfl⟩
            rw [← h2]
            simp
/-- C10: `make_mut` is idempotent.  On a page whose mapping already
carries the COPIED flag it returns the mapped frame and leaves the whole
state (page tables, ledger, physical memory, allocator) untouched; and
whenever a `make_mut` call succeeds, running it again on the same page
returns the same frame and changes nothing, so each page is privately
duplicated at most once per load. -/
theorem makeMut_idempotent :
    (∀ (s : MState) (page frame : Nat) (flags : Flags),
      s.pt page = some (frame, flags) → COPIED flags = true →
        makeMut s page = Except.ok (frame, s)) ∧
    (∀ (s : MState) (page f' : Nat) (s' : MState),
      makeMut s page = Except.ok (f', s') →
        makeMut s' page = Except.ok (f', s')) := by
  constructor
  · intro s page frame flags hpt hcopied
    simp [makeMut, hpt, hcopied]
  · intro s page f' s' h
    obtain ⟨fl, hpt, hcop⟩ := makeMut_ok_copied h
    simp [makeMut, hpt, hcop]

theorem makeMut_idempotent_witness :
    makeMut
        ⟨fun p => if p = 0 then some (4096, ⟨true, true, true, false, true⟩)
          else none, [], fun _ => 0, []⟩ 0 =
      Except.ok ((4096 : Nat),
        (⟨fun p => if p = 0 then some (4096, ⟨true, true, true, false, true⟩)
          else none, [], fun _ => 0, []⟩ : MState)) :=
  makeMut_idempotent.1 _ 0 4096 ⟨true, true, true, false, true⟩ rfl rfl

/-- C6: on the kernel mapper, `map_page(P, F, flags)` on an unmapped page
succeeds and a following `unmap_page(P)` (through the user mapper, which
delegates to the kernel unmap) leaves `translate(P)` with no mapping; and
`map_page` on an already-mapped page fails with `AlreadyMapped`, leaving
the existing translation unchanged. -/
theorem map_unmap_inverse :
    (∀ (s : MState) (P F : Nat) (fl : Flags), s.pt P = none →
      (kernelMapPage s P F fl).2 = none ∧
      (userUnmapPage (kernelMapPage s P F fl).1 P).2 = none ∧
      translatePage (userUnmapPage (kernelMapPage s P F fl).1 P).1 P = none) ∧
    (∀ (s : MState) (P F : Nat) (fl : Flags) (e : Nat × Flags),
      s.pt P = some e →
        kernelMapPage s P F fl = (s, some MapError.alreadyMapped) ∧
        translatePage (kernelMapPage s P F fl).1 P = some e) := by
  constructor
  · intro s P F fl h
    refine ⟨?_, ?_, ?_⟩ <;>
      simp [kernelMapPage, userUnmapPage, kernelUnmapPage, translatePage, h]
  · intro s P F fl e h
    simp [kernelMapPage, translatePage, h]

theorem map_unmap_inverse_witness :
    translatePage
        (userUnmapPage
          (kernelMapPage ⟨fun _ => none, [], fun _ => 0, []⟩ 0 4096
            ⟨true, true, false, false, false⟩).1 0).1 0 = none :=
  (map_unmap_inverse.1 _ 0 4096 ⟨true, true, false, false, false⟩ rfl).2.2

/-! ### C7: the MemoryContext ledger -/

theorem ctxLookup_insert (m : MemoryContext) (p : Nat) (v : Nat × Flags)
    (q : Nat) :
    ctxLookup (ctxInsert m p v) q = if q = p then some v else ctxLookup m q := by
  induction m with
  | nil =>
      by_cases h : q = p
      · subst h; simp [ctxInsert, ctxLookup]
      · simp [ctxInsert, ctxLookup, h, Ne.symm h]
  | cons e rest ih =>
      obtain ⟨k, w⟩ := e
      by_cases hk : k = p
      · subst hk
        by_cases h : q = k
        · subst h; simp [ctxInsert, ctxLookup]
        · simp [ctxInsert, ctxLookup, h, Ne.symm h]
      · by_cases h : q = k
        · subst h
          simp [ctxInsert, ctxLookup, hk, Ne.symm hk]
        · simp [ctxInsert, ctxLookup, hk, Ne.symm h, ih]

theorem ctxRemove_cons (k : Nat) (w : Nat × Flags) (rest : MemoryContext)
    (p : Nat) :
    ctxRemove ((k, w) :: rest) p =
      if k = p then ctxRemove rest p else (k, w) :: ctxRemove rest p := by
  by_cases h : k = p <;> simp [ctxRemove, List.filter_cons, h]

theorem ctxLookup_remove (m : MemoryContext) (p q : Nat) :
    ctxLookup (ctxRemove m p) q = if q = p then none else ctxLookup m q := by
  induction m with
  | nil =>
      by_cases h : q = p <;> simp [ctxRemove, ctxLookup, h]
  | cons e rest ih =>
      obtain ⟨k, w⟩ := e
      rw [ctxRemove_cons]
      by_cases hk : k = p
      · rw [if_pos hk, ih]
        subst hk
        by_cases h : q = k
        · subst h; simp
        · simp [ctxLookup, h, Ne.symm h]
      · rw [if_neg hk]
        by_cases h : q = k
        · subst h
          simp [ctxLookup, hk]
        · simp [ctxLookup, Ne.symm h, ih]

/-- The amended C7 invariant: over any sequence of user-mapper
`map_page`/`unmap_page` calls in which every call succeeds, the
`MemoryContext` ledger holds exactly the pages mapped and not subsequently
unmapped, each with the caller's flags ORed with USER_ACCESSIBLE, agreeing
with the translation installed in the live page tables. -/
theorem userMapper_ledger (ops : List MapOp) :
    ∀ (s : MState),
      (∀ p e, ctxLookup s.localMap p = some e →
        s.pt p = some e ∧ e.2.userAccessible = true) →
      (runOps s ops).2 = true →
      (∀ p, ctxLookup (runOps s ops).1.localMap p =
          expectedLocal ops (fun q => ctxLookup s.localMap q) p) ∧
      (∀ p e, ctxLookup (runOps s ops).1.localMap p = some e →
        (runOps s ops).1.pt p = some e ∧ e.2.userAccessible = true) := by
  induction ops with
  | nil =>
      intro s hInv _
      exact ⟨fun p => rfl, hInv⟩
  | cons op rest ih =>
      intro s hInv hOk
      cases op with
      | map p f fl =>
          cases hpt : s.pt p with
          | some e =>
              exfalso
              simp [runOps, runOp, userMapPage, kernelMapPage, hpt] at hOk
          | none =>
              have hstep : runOp s (MapOp.map p f fl) =
                  ({ s with
                      localMap := ctxInsert s.localMap p (f, withUser fl),
                      pt := fun q =>
                        if q = p then some (f, withUser fl) else s.pt q },
                    true) := by
                simp [runOp, userMapPage, kernelMapPage, hpt]
              rw [runOps, hstep] at hOk ⊢
              simp only [Bool.true_and] at hOk ⊢
              set s1 : MState :=
                { s with
                  localMap := ctxInsert s.localMap p (f, withUser fl),
                  pt := fun q =>
                    if q = p then some (f, withUser fl) else s.pt q } with hs1
              have hInv1 : ∀ q e, ctxLookup s1.localMap q = some e →
                  s1.pt q = some e ∧ e.2.userAccessible = true := by
                intro q e hq
                rw [hs1] at hq ⊢
                simp only [ctxLookup_insert] at hq
                by_cases hqp : q = p
                · subst hqp
                  simp only [if_pos rfl] at hq ⊢
                  obtain rfl := Option.some.inj hq
                  exact ⟨rfl, by simp [withUser]⟩
                · simp only [if_neg hqp] at hq ⊢
                  exact hInv q e hq
              obtain ⟨h1, h2⟩ := ih s1 hInv1 hOk
              refine ⟨?_, h2⟩
              intro q
              rw [h1 q, expectedLocal]
              have hacc : (fun r => ctxLookup s1.localMap r) =
                  (fun r =>
                    if r = p then some (f, withUser fl)
                    else ctxLookup s.localMap r) := by
                funext r
                rw [hs1]
                simp [ctxLookup_insert]
              rw [hacc]
      | unmap p =>
          cases hpt : s.pt p with
          | none =>
              exfalso
              simp [runOps, runOp, userUnmapPage, kernelUnmapPage, hpt] at hOk
          | some e =>
              have hstep : runOp s (MapOp.unmap p) =
                  ({ s with
                      localMap := ctxRemove s.localMap p,
                      pt := fun q => if q = p then none else s.pt q },
                    true) := by
                simp [runOp, userUnmapPage, kernelUnmapPage, hpt]
              rw [runOps, hstep] at hOk ⊢
              simp only [Bool.true_and] at hOk ⊢
              set s1 : MState :=
                { s with
                  localMap := ctxRemove s.localMap p,
                  pt := fun q => if q = p then none else s.pt q } with hs1
              have hInv1 : ∀ q e, ctxLookup s1.localMap q = some e →
                  s1.pt q = some e ∧ e.2.userAccessible = true := by
                intro q e hq
                rw [hs1] at hq ⊢
                simp only [ctxLookup_remove] at hq
                by_cases hqp : q = p
                · subst hqp
                  simp at hq
                · simp only [if_neg hqp] at hq ⊢
                  exact hInv q e hq
              obtain ⟨h1, h2⟩ := ih s1 hInv1 hOk
              refine ⟨?_, h2⟩
              intro q
              rw [h1 q, expectedLocal]
              have hacc : (fun r => ctxLookup s1.localMap r) =
                  (fun r => if r = p then none else ctxLookup s.localMap r) := by
                funext r
                rw [hs1]
                simp [ctxLookup_remove]
              rw [hacc]

theorem userMapper_ledger_witness :
    ctxLookup
        (runOps ⟨fun _ => none, [], fun _ => 0, []⟩
          [MapOp.map 0 8192 ⟨true, true, false, false, false⟩,
           MapOp.map 4096 16384 ⟨true, false, false, true, false⟩,
           MapOp.unmap 0]).1.localMap 4096 =
      expectedLocal
        [MapOp.map 0 8192 ⟨true, true, false, false, false⟩,
         MapOp.map 4096 16384 ⟨true, false, false, true, false⟩,
         MapOp.unmap 0]
        (fun q =>
          ctxLookup (MState.localMap ⟨fun _ => none, [], fun _ => 0, []⟩) q)
        4096 :=
  (userMapper_ledger _ _ (fun p e h => by simp [ctxLookup] at h)
    (by decide)).1 4096

/-- C7 counterexample: the claim fails for call sequences containing a
failing `map_page`.  `UserMemoryMapper::map_page` inserts into `local_map`
before the kernel map can fail, so after a successful map of page 0 to
frame 0 followed by a failing map of page 0 to frame 4096, the ledger
records frame 4096 while the live page tables still hold frame 0. -/
theorem userMapper_ledger_counterexample :
    ¬ (∀ (ops : List MapOp) (s : MState), s.localMap = [] →
        ∀ p e, ctxLookup (runOps s ops).1.localMap p = some e →
          (runOps s ops).1.pt p = some e) := by
  intro h
  have := h
    [MapOp.map 0 0 ⟨true, true, false, false, false⟩,
     MapOp.map 0 4096 ⟨true, true, false, false, false⟩]
    ⟨fun _ => none, [], fun _ => 0, []⟩
    rfl 0 (4096, ⟨true, true, true, false, false⟩)
    (by simp [runOps, runOp, userMapPage, kernelMapPage, ctxInsert,
      ctxLookup, withUser])
  simp [runOps, runOp, userMapPage, kernelMapPage, withUser] at this

/-! ### C8: MBR round-trip -/

theorem readU32_writeU32 (d : Nat → Nat) (addr v : Nat) :
    readU32LE (writeU32LE d addr v) addr = v % 2 ^ 32 := by
  unfold readU32LE writeU32LE
  rw [if_pos (by omega : addr ≤ addr ∧ addr < addr + 4),
    if_pos (by omega : addr ≤ addr + 1 ∧ addr + 1 < addr + 4),
    if_pos (by omega : addr ≤ addr + 2 ∧ addr + 2 < addr + 4),
    if_pos (by omega : addr ≤ addr + 3 ∧ addr + 3 < addr + 4)]
  have h0 : addr - addr = 0 := by omega
  have h1 : addr + 1 - addr = 1 := by omega
  have h2 : addr + 2 - addr = 2 := by omega
  have h3 : addr + 3 - addr = 3 := by omega
  rw [h0, h1, h2, h3]
  norm_num
  omega

theorem readU32_write_outside (d : Nat → Nat) (waddr v raddr : Nat)
    (h : raddr + 4 ≤ waddr ∨ waddr + 4 ≤ raddr) :
    readU32LE (writeU32LE d waddr v) raddr = readU32LE d raddr := by
  unfold readU32LE writeU32LE
  rw [if_neg (by omega), if_neg (by omega), if_neg (by omega),
    if_neg (by omega)]

theorem serializeEntry_outside (d : Nat → Nat) (off : Nat)
    (e : PartitionTableEntry) (a : Nat) (h : a < off ∨ off + 16 ≤ a) :
    serializeEntry d off e a = d a := by
  simp only [serializeEntry, writeU32LE]
  rw [if_neg (by omega), if_neg (by omega), if_neg (by omega),
    if_neg (by omega)]

theorem parseEntry_congr (d d' : Nat → Nat) (off : Nat)
    (h : ∀ a, off ≤ a → a < off + 16 → d a = d' a) :
    parseEntry d off = parseEntry d' off := by
  unfold parseEntry readU32LE
  rw [h off (by omega) (by omega), h (off + 4) (by omega) (by omega),
    h (off + 8) (by omega) (by omega), h (off + 8 + 1) (by omega) (by omega),
    h (off + 8 + 2) (by omega) (by omega), h (off + 8 + 3) (by omega) (by omega),
    h (off + 12) (by omega) (by omega), h (off + 12 + 1) (by omega) (by omega),
    h (off + 12 + 2) (by omega) (by omega), h (off + 12 + 3) (by omega) (by omega)]

theorem parse_serialize_entry (d : Nat → Nat) (off : Nat)
    (e : PartitionTableEntry)
    (hty : PartitionType.fromMbrTagByte (e.partitionType.toMbrTagByte % 256) =
      e.partitionType)
    (hlba : e.logicalBlockAddress < 2 ^ 32) (hcnt : e.sectorCount < 2 ^ 32) :
    parseEntry (serializeEntry d off e) off = e := by
  obtain ⟨b, ty, lba, cnt⟩ := e
  unfold parseEntry
  simp only [PartitionTableEntry.mk.injEq]
  refine ⟨?_, ?_, ?_, ?_⟩
  · have hb : serializeEntry d off ⟨b, ty, lba, cnt⟩ off =
        if b then 0x80 else 0x00 := by
      simp only [serializeEntry, writeU32LE]
      rw [if_neg (by omega), if_neg (by omega), if_neg (by omega)]
      simp
    rw [hb]
    cases b <;> simp
  · have ht : serializeEntry d off ⟨b, ty, lba, cnt⟩ (off + 4) =
        ty.toMbrTagByte % 256 := by
      simp only [serializeEntry, writeU32LE]
      rw [if_neg (by omega), if_neg (by omega)]
      simp [show ¬(off + 4 = off) by omega]
    rw [ht, Nat.mod_mod_of_dvd _ (dvd_refl 256)]
    exact hty
  · have hl : readU32LE (serializeEntry d off ⟨b, ty, lba, cnt⟩) (off + 8) =
        lba % 2 ^ 32 := by
      simp only [serializeEntry]
      rw [readU32_write_outside _ _ _ _ (by omega)]
      exact readU32_writeU32 _ _ _
    rw [hl, Nat.mod_eq_of_lt hlba]
  · have hc : readU32LE (serializeEntry d off ⟨b, ty, lba, cnt⟩) (off + 12) =
        cnt % 2 ^ 32 := by
      simp only [serializeEntry]
      exact readU32_writeU32 _ _ _
    rw [hc, Nat.mod_eq_of_lt hcnt]

/-- C8 (amended): serializing a partition table into a buffer of at least
512 bytes and parsing it back preserves `bootable`, `partition_type`,
`logical_block_address` and `sector_count` of every entry, provided each
entry's partition type is canonical (a value `from_mbr_tag_byte` can
produce) and the u32 fields are in range; `from_bytes` rejects buffers
shorter than 512 bytes and buffers whose bytes 510-511 are not
`0x55 0xaa`. -/
theorem mbr_roundtrip :
    (∀ (mbr : MasterBootRecord) (buf : ByteBuffer), 512 ≤ buf.len →
      (∀ i : Fin 4, PartitionType.fromMbrTagByte
          ((mbr.entries i).partitionType.toMbrTagByte % 256) =
        (mbr.entries i).partitionType) →
      (∀ i : Fin 4, (mbr.entries i).logicalBlockAddress < 2 ^ 32 ∧
        (mbr.entries i).sectorCount < 2 ^ 32) →
      ∀ i : Fin 4,
        Except.map (fun res => res.entries i)
          ((mbr.serialize buf).bind MasterBootRecord.fromBytes) =
        Except.ok (mbr.entries i)) ∧
    (∀ buf : ByteBuffer, buf.len < 512 →
      MasterBootRecord.fromBytes buf =
        Except.error (MbrError.bufferWrongSize 512 buf.len)) ∧
    (∀ buf : ByteBuffer, 512 ≤ buf.len →
      ¬(buf.data 510 % 256 = 0x55 ∧ buf.data 511 % 256 = 0xaa) →
      MasterBootRecord.fromBytes buf =
        Except.error (MbrError.invalidSuffix (buf.data 510 % 256)
          (buf.data 511 % 256))) := by
  refine ⟨?_, ?_, ?_⟩
  · intro mbr buf hlen hty hbnd i
    set base : Nat → Nat :=
      fun a => if a = 510 then 0x55 else if a = 511 then 0xaa else buf.data a
      with hbase
    set D : Nat → Nat :=
      serializeEntry
        (serializeEntry
          (serializeEntry (serializeEntry base 446 (mbr.entries 0)) 462
            (mbr.entries 1)) 478 (mbr.entries 2)) 494 (mbr.entries 3)
      with hD
    have hser : mbr.serialize buf = Except.ok ⟨buf.len, D⟩ := by
      unfold MasterBootRecord.serialize
      rw [if_neg (by omega)]
    have h510 : D 510 = 0x55 := by
      rw [hD, serializeEntry_outside _ _ _ _ (by omega),
        serializeEntry_outside _ _ _ _ (by omega),
        serializeEntry_outside _ _ _ _ (by omega),
        serializeEntry_outside _ _ _ _ (by omega), hbase]
      simp
    have h511 : D 511 = 0xaa := by
      rw [hD, serializeEntry_outside _ _ _ _ (by omega),
        serializeEntry_outside _ _ _ _ (by omega),
        serializeEntry_outside _ _ _ _ (by omega),
        serializeEntry_outside _ _ _ _ (by omega), hbase]
      simp
    have hfb : MasterBootRecord.fromBytes ⟨buf.len, D⟩ =
        Except.ok ⟨fun j => parseEntry D (446 + 16 * j.val)⟩ := by
      unfold MasterBootRecord.fromBytes
      rw [if_neg (by simp only []; omega),
        if_neg (not_not_intro ⟨by simp only []; rw [h510], by simp only []; rw [h511]⟩)]
    rw [hser]
    show Except.map _ (MasterBootRecord.fromBytes ⟨buf.len, D⟩) = _
    rw [hfb]
    show Except.ok (parseEntry D (446 + 16 * i.val)) = _
    fin_cases i
    · show Except.ok (parseEntry D (446 + 16 * 0)) = _
      norm_num
      have step : parseEntry D 446 =
          parseEntry (serializeEntry base 446 (mbr.entries 0)) 446 := by
        refine parseEntry_congr _ _ 446 (fun a ha1 ha2 => ?_)
        rw [hD, serializeEntry_outside _ _ _ _ (by omega),
          serializeEntry_outside _ _ _ _ (by omega),
          serializeEntry_outside _ _ _ _ (by omega)]
      rw [step]
      exact parse_serialize_entry base 446 _ (hty 0) (hbnd 0).1 (hbnd 0).2
    · show Except.ok (parseEntry D (446 + 16 * 1)) = _
      norm_num
      have step : parseEntry D 462 =
          parseEntry
            (serializeEntry (serializeEntry base 446 (mbr.entries 0)) 462
              (mbr.entries 1)) 462 := by
        refine parseEntry_congr _ _ 462 (fun a ha1 ha2 => ?_)
        rw [hD, serializeEntry_outside _ _ _ _ (by omega),
          serializeEntry_outside _ _ _ _ (by omega)]
      rw [step]
      exact parse_serialize_entry _ 462 _ (hty 1) (hbnd 1).1 (hbnd 1).2
    · show Except.ok (parseEntry D (446 + 16 * 2)) = _
      norm_num
      have step : parseEntry D 478 =
          parseEntry
            (serializeEntry
              (serializeEntry (serializeEntry base 446 (mbr.entries 0)) 462
                (mbr.entries 1)) 478 (mbr.entries 2)) 478 := by
        refine parseEntry_congr _ _ 478 (fun a ha1 ha2 => ?_)
        rw [hD, serializeEntry_outside _ _ _ _ (by omega)]
      rw [step]
      exact parse_serialize_entry _ 478 _ (hty 2) (hbnd 2).1 (hbnd 2).2
    · show Except.ok (parseEntry D (446 + 16 * 3)) = _
      norm_num
      rw [hD]
      exact parse_serialize_entry _ 494 _ (hty 3) (hbnd 3).1 (hbnd 3).2
  · intro buf h
    unfold MasterBootRecord.fromBytes
    rw [if_pos h]
  · intro buf hlen hsuf
    unfold MasterBootRecord.fromBytes
    rw [if_neg (by omega), if_pos hsuf]

theorem mbr_roundtrip_witness :
    Except.map
        (fun res => res.entries 0)
        ((MasterBootRecord.serialize
            ⟨fun _ => ⟨true, PartitionType.fat32 11, 2048, 1000⟩⟩
            ⟨512, fun _ => 0⟩).bind MasterBootRecord.fromBytes) =
      Except.ok ((⟨true, PartitionType.fat32 11, 2048, 1000⟩ :
        PartitionTableEntry)) :=
  mbr_roundtrip.1 ⟨fun _ => ⟨true, PartitionType.fat32 11, 2048, 1000⟩⟩
    ⟨512, fun _ => 0⟩ (by norm_num) (by decide) (by decide) 0

/-- C8 counterexample: the round-trip fails for tables holding a
non-canonical partition type.  `ISO9660` is never produced by
`from_mbr_tag_byte`, so an entry with type `ISO9660(0xcd)` serializes to
tag byte `0xcd` and parses back as `Unknown(0xcd)`. -/
theorem mbr_roundtrip_counterexample :
    ¬ (∀ (mbr : MasterBootRecord) (buf : ByteBuffer), 512 ≤ buf.len →
        ∀ i : Fin 4,
          Except.map (fun res => res.entries i)
            ((mbr.serialize buf).bind MasterBootRecord.fromBytes) =
          Except.ok (mbr.entries i)) := by
  intro h
  have hc := h ⟨fun _ => ⟨false, PartitionType.iso9660 205, 0, 0⟩⟩
    ⟨512, fun _ => 0⟩ (by norm_num) 0
  have heval : Except.map
      (fun res => res.entries 0)
      ((MasterBootRecord.serialize
          ⟨fun _ => ⟨false, PartitionType.iso9660 205, 0, 0⟩⟩
          ⟨512, fun _ => 0⟩).bind MasterBootRecord.fromBytes) =
      Except.ok ((⟨false, PartitionType.unknown 205, 0, 0⟩ :
        PartitionTableEntry)) := rfl
  rw [heval] at hc
  simp [PartitionTableEntry.mk.injEq] at hc

/-! ### C5: frame allocator -/

theorem usableFrames_cons (r : MemoryRegion) (rs : List MemoryRegion) :
    usableFrames (r :: rs) =
      (if r.usable = true then (stepBy4096 r.start r.stop).map pageContaining
       else []) ++ usableFrames rs := by
  by_cases h : r.usable <;> simp [usableFrames, List.filter_cons, h]

theorem mem_region_frames (r : MemoryRegion) (f : Nat)
    (h1 : 4096 ∣ r.start) (h2 : 4096 ∣ r.stop)
    (hf : f ∈ (stepBy4096 r.start r.stop).map pageContaining) :
    r.start ≤ f ∧ f + 4096 ≤ r.stop := by
  simp only [stepBy4096, List.map_map, List.mem_map, List.mem_range] at hf
  obtain ⟨i, hi, rfl⟩ := hf
  have hpc : pageContaining (r.start + 4096 * i) = r.start + 4096 * i := by
    unfold pageContaining
    omega
  simp only [Function.comp]
  rw [hpc]
  omega

theorem region_frames_eq (r : MemoryRegion)
    (h1 : 4096 ∣ r.start) :
    (stepBy4096 r.start r.stop).map pageContaining =
      (List.range ((r.stop - r.start + 4095) / 4096)).map
        (fun i => r.start + 4096 * i) := by
  unfold stepBy4096
  rw [List.map_map]
  refine List.map_congr_left (fun i hi => ?_)
  simp only [Function.comp]
  unfold pageContaining
  omega

theorem usableFrames_mem (regions : List MemoryRegion)
    (halign : ∀ r ∈ regions, r.usable = true → 4096 ∣ r.start ∧ 4096 ∣ r.stop) :
    ∀ f ∈ usableFrames regions,
      ∃ r ∈ regions, r.usable = true ∧ r.start ≤ f ∧ f + 4096 ≤ r.stop := by
  induction regions with
  | nil => simp [usableFrames]
  | cons r rs ih =>
      intro f hf
      rw [usableFrames_cons] at hf
      rcases List.mem_append.mp hf with hf1 | hf2
      · by_cases hu : r.usable = true
        · rw [if_pos hu] at hf1
          obtain ⟨ha, hb⟩ := mem_region_frames r f
            (halign r (by simp) hu).1 (halign r (by simp) hu).2 hf1
          exact ⟨r, by simp, hu, ha, hb⟩
        · rw [if_neg hu] at hf1
          simp at hf1
      · obtain ⟨r', hr', h⟩ := ih
          (fun r' h hu => halign r' (List.mem_cons_of_mem _ h) hu) f hf2
        exact ⟨r', List.mem_cons_of_mem _ hr', h⟩

theorem usableFrames_nodup (regions : List MemoryRegion)
    (halign : ∀ r ∈ regions, r.usable = true → 4096 ∣ r.start ∧ 4096 ∣ r.stop)
    (hdisj : regions.Pairwise
      (fun r1 r2 => r1.stop ≤ r2.start ∨ r2.stop ≤ r1.start)) :
    (usableFrames regions).Nodup := by
  induction regions with
  | nil => simp [usableFrames]
  | cons r rs ih =>
      rw [usableFrames_cons]
      have ihr := ih (fun r' h hu => halign r' (List.mem_cons_of_mem _ h) hu)
        (List.Pairwise.of_cons hdisj)
      by_cases hu : r.usable = true
      · rw [if_pos hu]
        refine List.Nodup.append ?_ ihr ?_
        · rw [region_frames_eq r (halign r (by simp) hu).1]
          exact (List.nodup_range _).map
            (fun a b hab => by omega)
        · intro f hf1 hf2
          obtain ⟨ha, hb⟩ := mem_region_frames r f
            (halign r (by simp) hu).1 (halign r (by simp) hu).2 hf1
          obtain ⟨r', hr', _, ha', hb'⟩ := usableFrames_mem rs
            (fun r' h hu' => halign r' (List.mem_cons_of_mem _ h) hu') f hf2
          have := List.rel_of_pairwise_cons hdisj hr'
          omega
      · rw [if_neg hu]
        simpa using ihr

/-- C5 (amended): over a bootloader memory map whose usable regions are
4 KiB-aligned and pairwise disjoint, the frames produced by the bump
cursor are pairwise distinct, each lies entirely within a usable region,
the allocator returns `None` once the cursor reaches the number of usable
frames, and each call is a pure lookup of the cursor position (so later
calls never disturb earlier results). -/
theorem frameAllocator_distinct_usable :
    ∀ regions : List MemoryRegion,
      (∀ r ∈ regions, r.usable = true → 4096 ∣ r.start ∧ 4096 ∣ r.stop) →
      regions.Pairwise (fun r1 r2 => r1.stop ≤ r2.start ∨ r2.stop ≤ r1.start) →
      (usableFrames regions).Nodup ∧
      (∀ f ∈ usableFrames regions,
        ∃ r ∈ regions, r.usable = true ∧ r.start ≤ f ∧ f + 4096 ≤ r.stop) ∧
      (∀ n, (usableFrames regions).length ≤ n →
        (allocateFrameBump regions n).1 = none) ∧
      (∀ n, allocateFrameBump regions n =
        ((usableFrames regions).get? n, n + 1)) :=
  fun regions halign hdisj =>
    ⟨usableFrames_nodup regions halign hdisj,
     usableFrames_mem regions halign,
     fun n hn => List.get?_eq_none.mpr hn,
     fun n => rfl⟩

theorem frameAllocator_distinct_usable_witness :
    (usableFrames [⟨0, 8192, true⟩]).Nodup ∧
      (allocateFrameBump [⟨0, 8192, true⟩] 2).1 = none :=
  ⟨(frameAllocator_distinct_usable [⟨0, 8192, true⟩] (by decide)
      (by simp)).1,
   (frameAllocator_distinct_usable [⟨0, 8192, true⟩] (by decide)
      (by simp)).2.2.1 2 (by decide)⟩

/-- C5 counterexample: with unaligned usable regions the claim fails.  A
single usable region `[0x1000, 0x1800)` yields the frame `0x1000`, whose
4 KiB extent `[0x1000, 0x2000)` does not lie within the region; adjacent
unaligned regions likewise produce duplicate frames. -/
theorem frameAllocator_counterexample :
    ¬ (∀ (regions : List MemoryRegion) (n f : Nat),
        (allocateFrameBump regions n).1 = some f →
          ∃ r ∈ regions, r.usable = true ∧ r.start ≤ f ∧ f + 4096 ≤ r.stop) := by
  intro h
  have := h [⟨4096, 6144, true⟩] 0 4096 (by decide)
  exact absurd this (by decide)

/-! ### C4: RELRO stripping -/

theorem relroPageStep_ok {s : MState} {page f : Nat} {fl : Flags}
    (h : s.pt page = some (f, fl)) :
    ∃ s', relroPageStep s page = Except.ok s' ∧
      s'.pt page = some (f, { fl with writable := false }) ∧
      (∀ q, q ≠ page → s'.pt q = s.pt q) ∧
      s'.localMap = s.localMap ∧ s'.phys = s.phys ∧ s'.free = s.free := by
  by_cases hw : fl.writable = true
  · refine ⟨⟨fun p => if p = page then some (f, { fl with writable := false })
        else s.pt p, s.localMap, s.phys, s.free⟩,
      by simp [relroPageStep, h, hw], by simp,
      fun q hq => by simp [hq], rfl, rfl, rfl⟩
  · have heta : ({ fl with writable := false } : Flags) = fl := by
      obtain ⟨p1, p2, p3, p4, p5⟩ := fl
      simp at hw
      simp [hw]
    exact ⟨s, by simp [relroPageStep, h, hw], by rw [heta]; exact h,
      fun q _ => rfl, rfl, rfl, rfl⟩

theorem relroPagesGo_ok (pages : List Nat) :
    ∀ s : MState, (∀ p ∈ pages, (s.pt p).isSome = true) →
      ∃ s', relroPagesGo s pages = Except.ok s' ∧
        (∀ q, q ∉ pages → s'.pt q = s.pt q) ∧
        (∀ q, q ∈ pages → ∃ f fl, s.pt q = some (f, fl) ∧
          s'.pt q = some (f, { fl with writable := false })) ∧
        s'.localMap = s.localMap ∧ s'.phys = s.phys ∧ s'.free = s.free := by
  induction pages with
  | nil => exact fun s _ => ⟨s, rfl, fun q _ => rfl, by simp, rfl, rfl, rfl⟩
  | cons p rest ih =>
      intro s hsome
      obtain ⟨⟨f, fl⟩, hp⟩ :=
        Option.isSome_iff_exists.mp (hsome p (by simp))
      obtain ⟨s1, hstep, hpt1, hother1, hlm1, hph1, hfr1⟩ := relroPageStep_ok hp
      have hsome1 : ∀ q ∈ rest, (s1.pt q).isSome = true := by
        intro q hq
        by_cases hqp : q = p
        · subst hqp; rw [hpt1]; rfl
        · rw [hother1 q hqp]; exact hsome q (by simp [hq])
      obtain ⟨s', hgo, ha, hb, hlm, hph, hfr⟩ := ih s1 hsome1
      refine ⟨s', ?_, ?_, ?_, hlm.trans hlm1, hph.trans hph1, hfr.trans hfr1⟩
      · rw [relroPagesGo, hstep]
        exact hgo
      · intro q hq
        have hq1 : q ≠ p := fun hh => hq (by simp [hh])
        have hq2 : q ∉ rest := fun hh => hq (by simp [hh])
        rw [ha q hq2, hother1 q hq1]
      · intro q hq
        rcases List.mem_cons.mp hq with hqp | hqr
        · subst hqp
          by_cases hqrest : q ∈ rest
          · obtain ⟨f1, fl1, hs1, hs'⟩ := hb q hqrest
            rw [hpt1] at hs1
            obtain ⟨h1, h2⟩ := Prod.mk.injEq .. ▸ Option.some.inj hs1
            refine ⟨f, fl, hp, ?_⟩
            rw [hs', ← h1, ← h2]
          · rw [ha q hqrest]
            exact ⟨f, fl, hp, hpt1⟩
        · obtain ⟨f1, fl1, hs1, hs'⟩ := hb q hqr
          by_cases hqp : q = p
          · subst hqp
            rw [hpt1] at hs1
            obtain ⟨h1, h2⟩ := Prod.mk.injEq .. ▸ Option.some.inj hs1
            refine ⟨f, fl, hp, ?_⟩
            rw [hs', ← h1, ← h2]
          · rw [hother1 q hqp] at hs1
            exact ⟨f1, fl1, hs1, hs'⟩

theorem removeCopiedPageStep_ok {s : MState} {page f : Nat} {fl : Flags}
    (h : s.pt page = some (f, fl)) :
    ∃ s', removeCopiedPageStep s page = Except.ok s' ∧
      s'.pt page = some (f, { fl with copied := false }) ∧
      (∀ q, q ≠ page → s'.pt q = s.pt q) ∧
      s'.localMap = s.localMap ∧ s'.phys = s.phys ∧ s'.free = s.free := by
  by_cases hc : fl.copied = true
  · refine ⟨⟨fun p => if p = page then some (f, { fl with copied := false })
        else s.pt p, s.localMap, s.phys, s.free⟩,
      by simp [removeCopiedPageStep, h, hc], by simp,
      fun q hq => by simp [hq], rfl, rfl, rfl⟩
  · have heta : ({ fl with copied := false } : Flags) = fl := by
      obtain ⟨p1, p2, p3, p4, p5⟩ := fl
      simp at hc
      simp [hc]
    exact ⟨s, by simp [removeCopiedPageStep, h, hc], by rw [heta]; exact h,
      fun q _ => rfl, rfl, rfl, rfl⟩

theorem removeCopiedPagesGo_ok (pages : List Nat) :
    ∀ s : MState, (∀ p ∈ pages, (s.pt p).isSome = true) →
      ∃ s', removeCopiedPagesGo s pages = Except.ok s' ∧
        (∀ q, q ∉ pages → s'.pt q = s.pt q) ∧
        (∀ q, q ∈ pages → ∃ f fl, s.pt q = some (f, fl) ∧
          s'.pt q = some (f, { fl with copied := false })) ∧
        s'.localMap = s.localMap ∧ s'.phys = s.phys ∧ s'.free = s.free := by
  induction pages with
  | nil => exact fun s _ => ⟨s, rfl, fun q _ => rfl, by simp, rfl, rfl, rfl⟩
  | cons p rest ih =>
      intro s hsome
      obtain ⟨⟨f, fl⟩, hp⟩ :=
        Option.isSome_iff_exists.mp (hsome p (by simp))
      obtain ⟨s1, hstep, hpt1, hother1, hlm1, hph1, hfr1⟩ :=
        removeCopiedPageStep_ok hp
      have hsome1 : ∀ q ∈ rest, (s1.pt q).isSome = true := by
        intro q hq
        by_cases hqp : q = p
        · subst hqp; rw [hpt1]; rfl
        · rw [hother1 q hqp]; exact hsome q (by simp [hq])
      obtain ⟨s', hgo, ha, hb, hlm, hph, hfr⟩ := ih s1 hsome1
      refine ⟨s', ?_, ?_, ?_, hlm.trans hlm1, hph.trans hph1, hfr.trans hfr1⟩
      · rw [removeCopiedPagesGo, hstep]
        exact hgo
      · intro q hq
        have hq1 : q ≠ p := fun hh => hq (by simp [hh])
        have hq2 : q ∉ rest := fun hh => hq (by simp [hh])
        rw [ha q hq2, hother1 q hq1]
      · intro q hq
        rcases List.mem_cons.mp hq with hqp | hqr
        · subst hqp
          by_cases hqrest : q ∈ rest
          · obtain ⟨f1, fl1, hs1, hs'⟩ := hb q hqrest
            rw [hpt1] at hs1
            obtain ⟨h1, h2⟩ := Prod.mk.injEq .. ▸ Option.some.inj hs1
            refine ⟨f, fl, hp, ?_⟩
            rw [hs', ← h1, ← h2]
          · rw [ha q hqrest]
            exact ⟨f, fl, hp, hpt1⟩
        · obtain ⟨f1, fl1, hs1, hs'⟩ := hb q hqr
          by_cases hqp : q = p
          · subst hqp
            rw [hpt1] at hs1
            obtain ⟨h1, h2⟩ := Prod.mk.injEq .. ▸ Option.some.inj hs1
            refine ⟨f, fl, hp, ?_⟩
            rw [hs', ← h1, ← h2]
          · rw [hother1 q hqp] at hs1
            exact ⟨f1, fl1, hs1, hs'⟩

theorem relroPhase_ok (relros : List Segment) (bias : Nat) :
    ∀ s : MState,
      (∀ seg ∈ relros, ∀ p ∈ segPages bias seg, (s.pt p).isSome = true) →
      ∃ s', relros.foldlM (fun st seg => handleRelroSegment st bias seg) s =
          Except.ok s' ∧
        (∀ q, (∀ seg ∈ relros, q ∉ segPages bias seg) → s'.pt q = s.pt q) ∧
        (∀ q seg, seg ∈ relros → q ∈ segPages bias seg →
          ∃ f fl fl', s.pt q = some (f, fl) ∧ s'.pt q = some (f, fl') ∧
            fl'.writable = false ∧ fl'.present = fl.present ∧
            fl'.userAccessible = fl.userAccessible ∧
            fl'.noExecute = fl.noExecute ∧ fl'.copied = fl.copied) ∧
        s'.localMap = s.localMap ∧ s'.phys = s.phys ∧ s'.free = s.free := by
  induction relros with
  | nil =>
      exact fun s _ => ⟨s, rfl, fun q _ => rfl, by simp, rfl, rfl, rfl⟩
  | cons seg rest ih =>
      intro s hsome
      obtain ⟨s1, hgo, hout1, hin1, hlm1, hph1, hfr1⟩ :=
        relroPagesGo_ok (segPages bias seg) s (hsome seg (by simp))
      have hsome1 : ∀ sg ∈ rest, ∀ p ∈ segPages bias sg,
          (s1.pt p).isSome = true := by
        intro sg hsg p hp
        by_cases hpseg : p ∈ segPages bias seg
        · obtain ⟨f, fl, _, h2⟩ := hin1 p hpseg
          rw [h2]; rfl
        · rw [hout1 p hpseg]
          exact hsome sg (by simp [hsg]) p hp
      obtain ⟨s', hfold, ha, hb, hlm, hph, hfr⟩ := ih s1 hsome1
      refine ⟨s', ?_, ?_, ?_, hlm.trans hlm1, hph.trans hph1, hfr.trans hfr1⟩
      · rw [List.foldlM_cons]
        show Except.bind (handleRelroSegment s bias seg) _ = _
        rw [handleRelroSegment, hgo]
        exact hfold
      · intro q hq
        rw [ha q (fun sg hsg => hq sg (by simp [hsg])),
          hout1 q (hq seg (by simp))]
      · intro q sg hsg hq
        rcases List.mem_cons.mp hsg with rfl | hsgr
        · obtain ⟨f, fl, h1, h2⟩ := hin1 q hq
          by_cases hqr : ∃ sg' ∈ rest, q ∈ segPages bias sg'
          · obtain ⟨sg', hsg', hq'⟩ := hqr
            obtain ⟨f1, fl1, fl1', e1, e2, e3, e4, e5, e6, e7⟩ :=
              hb q sg' hsg' hq'
            rw [h2] at e1
            have e1' := Option.some.inj e1
            have g1 : f = f1 := congrArg Prod.fst e1'
            have g2 : ({ fl with writable := false } : Flags) = fl1 :=
              congrArg Prod.snd e1'
            subst g1
            refine ⟨f, fl, fl1', h1, e2, e3, ?_, ?_, ?_, ?_⟩
            · rw [e4, ← g2]
            · rw [e5, ← g2]
            · rw [e6, ← g2]
            · rw [e7, ← g2]
          · push_neg at hqr
            rw [ha q hqr, h2]
            exact ⟨f, fl, { fl with writable := false }, h1, rfl, rfl, rfl,
              rfl, rfl, rfl⟩
        · obtain ⟨f1, fl1, fl1', e1, e2, e3, e4, e5, e6, e7⟩ :=
            hb q sg hsgr hq
          by_cases hqseg : q ∈ segPages bias seg
          · obtain ⟨f, fl, h1, h2⟩ := hin1 q hqseg
            rw [h2] at e1
            have e1' := Option.some.inj e1
            have g1 : f = f1 := congrArg Prod.fst e1'
            have g2 : ({ fl with writable := false } : Flags) = fl1 :=
              congrArg Prod.snd e1'
            subst g1
            refine ⟨f, fl, fl1', h1, e2, e3, ?_, ?_, ?_, ?_⟩
            · rw [e4, ← g2]
            · rw [e5, ← g2]
            · rw [e6, ← g2]
            · rw [e7, ← g2]
          · rw [hout1 q hqseg] at e1
            exact ⟨f1, fl1, fl1', e1, e2, e3, e4, e5, e6, e7⟩

theorem cleanupPhase_ok (loads : List Segment) (bias : Nat) :
    ∀ s : MState,
      (∀ seg ∈ loads, ∀ p ∈ segPages bias seg, (s.pt p).isSome = true) →
      ∃ s', loads.foldlM (fun st seg => removeCopiedFlagsSeg st bias seg) s =
          Except.ok s' ∧
        (∀ q, (∀ seg ∈ loads, q ∉ segPages bias seg) → s'.pt q = s.pt q) ∧
        (∀ q seg, seg ∈ loads → q ∈ segPages bias seg →
          ∃ f fl fl', s.pt q = some (f, fl) ∧ s'.pt q = some (f, fl') ∧
            fl'.copied = false ∧ fl'.present = fl.present ∧
            fl'.writable = fl.writable ∧
            fl'.userAccessible = fl.userAccessible ∧
            fl'.noExecute = fl.noExecute) ∧
        s'.localMap = s.localMap ∧ s'.phys = s.phys ∧ s'.free = s.free := by
  induction loads with
  | nil =>
      exact fun s _ => ⟨s, rfl, fun q _ => rfl, by simp, rfl, rfl, rfl⟩
  | cons seg rest ih =>
      intro s hsome
      obtain ⟨s1, hgo, hout1, hin1, hlm1, hph1, hfr1⟩ :=
        removeCopiedPagesGo_ok (segPages bias seg) s (hsome seg (by simp))
      have hsome1 : ∀ sg ∈ rest, ∀ p ∈ segPages bias sg,
          (s1.pt p).isSome = true := by
        intro sg hsg p hp
        by_cases hpseg : p ∈ segPages bias seg
        · obtain ⟨f, fl, _, h2⟩ := hin1 p hpseg
          rw [h2]; rfl
        · rw [hout1 p hpseg]
          exact hsome sg (by simp [hsg]) p hp
      obtain ⟨s', hfold, ha, hb, hlm, hph, hfr⟩ := ih s1 hsome1
      refine ⟨s', ?_, ?_, ?_, hlm.trans hlm1, hph.trans hph1, hfr.trans hfr1⟩
      · rw [List.foldlM_cons]
        show Except.bind (removeCopiedFlagsSeg s bias seg) _ = _
        rw [removeCopiedFlagsSeg, hgo]
        exact hfold
      · intro q hq
        rw [ha q (fun sg hsg => hq sg (by simp [hsg])),
          hout1 q (hq seg (by simp))]
      · intro q sg hsg hq
        rcases List.mem_cons.mp hsg with rfl | hsgr
        · obtain ⟨f, fl, h1, h2⟩ := hin1 q hq
          by_cases hqr : ∃ sg' ∈ rest, q ∈ segPages bias sg'
          · obtain ⟨sg', hsg', hq'⟩ := hqr
            obtain ⟨f1, fl1, fl1', e1, e2, e3, e4, e5, e6, e7⟩ :=
              hb q sg' hsg' hq'
            rw [h2] at e1
            have e1' := Option.some.inj e1
            have g1 : f = f1 := congrArg Prod.fst e1'
            have g2 : ({ fl with copied := false } : Flags) = fl1 :=
              congrArg Prod.snd e1'
            subst g1
            refine ⟨f, fl, fl1', h1, e2, e3, ?_, ?_, ?_, ?_⟩
            · rw [e4, ← g2]
            · rw [e5, ← g2]
            · rw [e6, ← g2]
            · rw [e7, ← g2]
          · push_neg at hqr
            rw [ha q hqr, h2]
            exact ⟨f, fl, { fl with copied := false }, h1, rfl, rfl, rfl,
              rfl, rfl, rfl⟩
        · obtain ⟨f1, fl1, fl1', e1, e2, e3, e4, e5, e6, e7⟩ :=
            hb q sg hsgr hq
          by_cases hqseg : q ∈ segPages bias seg
          · obtain ⟨f, fl, h1, h2⟩ := hin1 q hqseg
            rw [h2] at e1
            have e1' := Option.some.inj e1
            have g1 : f = f1 := congrArg Prod.fst e1'
            have g2 : ({ fl with copied := false } : Flags) = fl1 :=
              congrArg Prod.snd e1'
            subst g1
            refine ⟨f, fl, fl1', h1, e2, e3, ?_, ?_, ?_, ?_⟩
            · rw [e4, ← g2]
            · rw [e5, ← g2]
            · rw [e6, ← g2]
            · rw [e7, ← g2]
          · rw [hout1 q hqseg] at e1
            exact ⟨f1, fl1, fl1', e1, e2, e3, e4, e5, e6, e7⟩

/-- C4 (amended): after all relocations are applied, the RELRO pass
followed by the copied-flag cleanup (the exact tail of
`Loader::load_segments`) succeeds whenever the ranges are mapped, strips
WRITABLE from every page of every `GNU_RELRO` segment while preserving
the frame and the other observable permission bits, and does so by
patching flags in place: the `MemoryContext` ledger, physical memory and
the allocator are untouched. -/
theorem relro_after_relocations :
    ∀ (s : MState) (bias : Nat) (relros loads : List Segment),
      (∀ seg ∈ relros, ∀ p ∈ segPages bias seg, (s.pt p).isSome = true) →
      (∀ seg ∈ loads, ∀ p ∈ segPages bias seg, (s.pt p).isSome = true) →
      ∃ s', relroThenCleanup s bias relros loads = Except.ok s' ∧
        s'.localMap = s.localMap ∧ s'.phys = s.phys ∧ s'.free = s.free ∧
        (∀ seg ∈ relros, ∀ p ∈ segPages bias seg,
          ∃ f fl fl', s.pt p = some (f, fl) ∧ s'.pt p = some (f, fl') ∧
            fl'.writable = false ∧ fl'.present = fl.present ∧
            fl'.userAccessible = fl.userAccessible ∧
            fl'.noExecute = fl.noExecute) := by
  intro s bias relros loads hrelro hloads
  obtain ⟨s1, hfold1, ha1, hb1, hlm1, hph1, hfr1⟩ :=
    relroPhase_ok relros bias s hrelro
  have hloads1 : ∀ seg ∈ loads, ∀ p ∈ segPages bias seg,
      (s1.pt p).isSome = true := by
    intro sg hsg p hp
    by_cases hpr : ∃ sg' ∈ relros, p ∈ segPages bias sg'
    · obtain ⟨sg', hsg', hp'⟩ := hpr
      obtain ⟨f, fl, fl', _, h2, _⟩ := hb1 p sg' hsg' hp'
      rw [h2]; rfl
    · push_neg at hpr
      rw [ha1 p hpr]
      exact hloads sg hsg p hp
  obtain ⟨s', hfold2, ha2, hb2, hlm2, hph2, hfr2⟩ :=
    cleanupPhase_ok loads bias s1 hloads1
  refine ⟨s', ?_, hlm2.trans hlm1, hph2.trans hph1, hfr2.trans hfr1, ?_⟩
  · rw [relroThenCleanup, hfold1]
    exact hfold2
  · intro seg hseg p hp
    obtain ⟨f, fl, fl', h1, h2, h3, h4, h5, h6, _⟩ := hb1 p seg hseg hp
    by_cases hpl : ∃ sg ∈ loads, p ∈ segPages bias sg
    · obtain ⟨sg, hsg, hp'⟩ := hpl
      obtain ⟨f1, fl1, fl1', e1, e2, _, e4, e5, e6, e7⟩ :=
        hb2 p sg hsg hp'
      rw [h2] at e1
      have e1' := Option.some.inj e1
      have g1 : f = f1 := congrArg Prod.fst e1'
      have g2 : fl' = fl1 := congrArg Prod.snd e1'
      subst g1
      subst g2
      refine ⟨f, fl, fl1', h1, e2, by rw [e5, h3], by rw [e4, h4],
        by rw [e6, h5], by rw [e7, h6]⟩
    · push_neg at hpl
      have h2' : s'.pt p = some (f, fl') := by rw [ha2 p hpl]; exact h2
      exact ⟨f, fl, fl', h1, h2', h3, h4, h5, h6⟩

theorem relro_after_relocations_witness :
    (relroThenCleanup
        ⟨fun p => if p = 0 then some (8192, ⟨true, true, true, false, false⟩)
          else none, [(0, (8192, ⟨true, true, true, false, false⟩))],
          fun _ => 0, []⟩ 0
        [⟨0, 0, 0, 4096, true, false⟩] [⟨0, 0, 0, 4096, true, false⟩]).map
        (fun s' => (s'.pt 0).map (fun e => e.2.writable)) =
      Except.ok (some false) := by
  obtain ⟨s', hok, _, _, _, hw⟩ := relro_after_relocations
    ⟨fun p => if p = 0 then some (8192, ⟨true, true, true, false, false⟩)
      else none, [(0, (8192, ⟨true, true, true, false, false⟩))],
      fun _ => 0, []⟩ 0
    [⟨0, 0, 0, 4096, true, false⟩] [⟨0, 0, 0, 4096, true, false⟩]
    (by decide) (by decide)
  rw [hok]
  obtain ⟨f, fl, fl', _, h2, h3, _⟩ := hw ⟨0, 0, 0, 4096, true, false⟩
    (by simp) 0 (by decide)
  simp [Except.map, h2, h3]

/-- C4 counterexample: the mechanism clause of the claim is false.  The
source strips WRITABLE with an in-place `update_flags` patch, not a full
translate-unmap-remap through the mapper: on a state whose
`MemoryContext` ledger records the page, the actual
`handle_relro_segment` leaves the ledger entry still WRITABLE, while the
spec's unmap-remap variant rewrites it. -/
theorem relro_mechanism_counterexample :
    ¬ (∀ (s : MState) (bias : Nat) (seg : Segment),
        handleRelroSegment s bias seg = handleRelroSegmentSpec s bias seg) := by
  intro h
  have hc := h
    ⟨fun p => if p = 0 then some (8192, ⟨true, true, true, false, false⟩)
      else none, [(0, (8192, ⟨true, true, true, false, false⟩))],
      fun _ => 0, []⟩ 0 ⟨0, 0, 0, 4096, true, false⟩
  have h1 : (handleRelroSegment
      ⟨fun p => if p = 0 then some (8192, ⟨true, true, true, false, false⟩)
        else none, [(0, (8192, ⟨true, true, true, false, false⟩))],
        fun _ => 0, []⟩ 0 ⟨0, 0, 0, 4096, true, false⟩).map
      (fun st => st.localMap) =
      Except.ok [(0, (8192, ⟨true, true, true, false, false⟩))] := rfl
  have h2 : (handleRelroSegmentSpec
      ⟨fun p => if p = 0 then some (8192, ⟨true, true, true, false, false⟩)
        else none, [(0, (8192, ⟨true, true, true, false, false⟩))],
        fun _ => 0, []⟩ 0 ⟨0, 0, 0, 4096, true, false⟩).map
      (fun st => st.localMap) =
      Except.ok [(0, (8192, ⟨true, false, true, false, false⟩))] := rfl
  rw [hc] at h1
  have hcontra := h1.symm.trans h2
  simp [Except.ok.injEq] at hcontra

/-! ### Shared lemmas for the BSS and relocation claims (C2, C3) -/

/-- The copy branch of `make_mut`: on a page mapped without COPIED, the
next allocator frame is taken, the old frame's 4096 bytes are duplicated
into it, and the page is remapped to the new frame with COPIED set. -/
theorem makeMut_copy_ok {s : MState} {page oldF : Nat} {fl : Flags}
    {nf : Nat} {rest : List Nat}
    (hpt : s.pt page = some (oldF, fl)) (hcop : COPIED fl = false)
    (hfree : s.free = nf :: rest) :
    ∃ s', makeMut s page = Except.ok (nf, s') ∧
      s'.pt page = some (nf, withUser { fl with copied := true }) ∧
      (∀ q, q ≠ page → s'.pt q = s.pt q) ∧
      s'.free = rest ∧
      (∀ a, nf ≤ a → a < nf + 4096 → s'.phys a = s.phys (oldF + (a - nf))) ∧
      (∀ a, ¬(nf ≤ a ∧ a < nf + 4096) → s'.phys a = s.phys a) := by
  have hcop' : ¬(COPIED fl = true) := by rw [hcop]; simp
  refine ⟨⟨fun q =>
      if q = page then some (nf, withUser { fl with copied := true })
      else if q = page then none else s.pt q,
    ctxInsert (ctxRemove s.localMap page) page
      (nf, withUser { fl with copied := true }),
    copyFrameP s.phys oldF nf, rest⟩, ?_, ?_, ?_, ?_, ?_, ?_⟩
  · rw [makeMut, hpt]
    simp only [hcop', if_false, Bool.false_eq_true, allocFrame, hfree,
      userUnmapPage, kernelUnmapPage, userMapPage, kernelMapPage, withUser,
      hpt, ite_true, if_pos rfl]
  · simp
  · intro q hq
    simp [hq]
  · rfl
  · intro a h1 h2
    simp [copyFrameP, h1, h2]
  · intro a h
    simp [copyFrameP, h]

/-- The frame-to-page loop of `handle_load_segment` maps each pair when
the destination pages are distinct and unmapped, touching nothing else. -/
theorem mapPagesToFrames_ok (pairs : List (Nat × Nat)) (flags : Flags) :
    ∀ s : MState, (pairs.map Prod.fst).Nodup →
      (∀ p ∈ pairs.map Prod.fst, s.pt p = none) →
      ∃ s', mapPagesToFrames s pairs flags = Except.ok s' ∧
        (∀ q, q ∉ pairs.map Prod.fst → s'.pt q = s.pt q) ∧
        (∀ pr ∈ pairs, s'.pt pr.1 = some (pr.2, withUser flags)) ∧
        s'.phys = s.phys ∧ s'.free = s.free := by
  induction pairs with
  | nil => exact fun s _ _ => ⟨s, rfl, fun q _ => rfl, by simp, rfl, rfl⟩
  | cons pr rest ih =>
      intro s hnd hunm
      obtain ⟨pg, fr⟩ := pr
      have hpg : s.pt pg = none := hunm pg (by simp)
      have hstep : userMapPage s pg fr flags =
          ({ s with
              localMap := ctxInsert s.localMap pg (fr, withUser flags),
              pt := fun q =>
                if q = pg then some (fr, withUser flags) else s.pt q },
            none) := by
        simp [userMapPage, kernelMapPage, hpg, withUser]
      have hnd' : (rest.map Prod.fst).Nodup := (List.nodup_cons.mp hnd).2
      have hpgrest : pg ∉ rest.map Prod.fst := (List.nodup_cons.mp hnd).1
      obtain ⟨s', hgo, ha, hb, hph, hfr2⟩ := ih
        { s with
          localMap := ctxInsert s.localMap pg (fr, withUser flags),
          pt := fun q =>
            if q = pg then some (fr, withUser flags) else s.pt q }
        hnd'
        (fun p hp => by
          have hne : p ≠ pg := fun hh => hpgrest (hh ▸ hp)
          simp only [hne, if_false]
          exact hunm p (by simp [hp]))
      refine ⟨s', ?_, ?_, ?_, hph, hfr2⟩
      · rw [mapPagesToFrames, hstep]
        exact hgo
      · intro q hq
        have hq1 : q ≠ pg := fun hh => hq (by simp [hh])
        have hq2 : q ∉ rest.map Prod.fst := fun hh => hq (by simp [hh])
        rw [ha q hq2]
        simp [hq1]
      · intro pr2 hpr2
        rcases List.mem_cons.mp hpr2 with h | hpr2r
        · subst h
          show s'.pt pg = some (fr, withUser flags)
          rw [ha pg hpgrest]
          simp
        · exact hb pr2 hpr2r

/-- The fresh-frame loop of `handle_bss_section`: with distinct unmapped
destination pages and enough allocator frames, every page ends mapped to
an allocator frame whose 4096 bytes read zero; pages and bytes outside
the loop's footprint are untouched, and zero bytes stay zero. -/
theorem zeroFreshPages_ok (pages : List Nat) (flags : Flags) :
    ∀ s : MState, pages.Nodup →
      (∀ p ∈ pages, s.pt p = none) →
      pages.length ≤ s.free.length →
      ∃ s', zeroFreshPages s pages flags = Except.ok s' ∧
        s'.free = s.free.drop pages.length ∧
        (∀ q, q ∉ pages → s'.pt q = s.pt q) ∧
        (∀ p ∈ pages, ∃ fr ∈ s.free.take pages.length,
          s'.pt p = some (fr, withUser flags) ∧
          (∀ j, j < 4096 → s'.phys (fr + j) = 0)) ∧
        (∀ a, (∀ fr ∈ s.free.take pages.length,
            ¬(fr ≤ a ∧ a < fr + 4096)) → s'.phys a = s.phys a) ∧
        (∀ a, s.phys a = 0 → s'.phys a = 0) := by
  induction pages with
  | nil =>
      exact fun s _ _ _ =>
        ⟨s, rfl, rfl, fun q _ => rfl, by simp, fun a _ => rfl, fun a h => h⟩
  | cons p rest ih =>
      intro s hnd hunm hlen
      obtain ⟨nf, rfree, hfree⟩ : ∃ nf rfree, s.free = nf :: rfree := by
        cases hf : s.free with
        | nil => rw [hf] at hlen; simp at hlen
        | cons a b => exact ⟨a, b, rfl⟩
      have hstep : zeroFreshPages s (p :: rest) flags =
          zeroFreshPages
            { s with
              free := rfree,
              phys := writeBytesP s.phys nf 4096 0,
              localMap := ctxInsert s.localMap p (nf, withUser flags),
              pt := fun q =>
                if q = p then some (nf, withUser flags) else s.pt q }
            rest flags := by
        rw [zeroFreshPages]
        simp only [allocFrame, hfree, userMapPage, kernelMapPage, withUser,
          hunm p (by simp), ite_true, if_pos rfl]
      set s1 : MState :=
        { s with
          free := rfree,
          phys := writeBytesP s.phys nf 4096 0,
          localMap := ctxInsert s.localMap p (nf, withUser flags),
          pt := fun q =>
            if q = p then some (nf, withUser flags) else s.pt q } with hs1
      have hnd' := (List.nodup_cons.mp hnd).2
      have hprest : p ∉ rest := (List.nodup_cons.mp hnd).1
      obtain ⟨s', hgo, hdropf, ha, hb, hc, hz⟩ := ih s1 hnd'
        (fun q hq => by
          have hne : q ≠ p := fun hh => hprest (hh ▸ hq)
          show (if q = p then some (nf, withUser flags) else s.pt q) = none
          simp only [hne, if_false]
          exact hunm q (by simp [hq]))
        (by show rest.length ≤ rfree.length
            rw [hfree] at hlen
            simp at hlen
            omega)
      refine ⟨s', ?_, ?_, ?_, ?_, ?_, ?_⟩
      · rw [hstep]; exact hgo
      · rw [hdropf, hfree, List.length_cons, List.drop_succ_cons]
      · intro q hq
        have hq1 : q ≠ p := fun hh => hq (by simp [hh])
        have hq2 : q ∉ rest := fun hh => hq (by simp [hh])
        rw [ha q hq2]
        show (if q = p then some (nf, withUser flags) else s.pt q) = s.pt q
        simp [hq1]
      · intro q hq
        rcases List.mem_cons.mp hq with rfl | hqr
        · refine ⟨nf, ?_, ?_, ?_⟩
          · rw [hfree, List.length_cons, List.take_succ_cons]
            simp
          · rw [ha q hprest]
            show (if q = q then some (nf, withUser flags) else s.pt q) = _
            simp
          · intro j hj
            refine hz (nf + j) ?_
            show writeBytesP s.phys nf 4096 0 (nf + j) = 0
            simp [writeBytesP, hj]
        · obtain ⟨fr, hfr, hpt, hzero⟩ := hb q hqr
          refine ⟨fr, ?_, hpt, hzero⟩
          rw [hfree, List.length_cons, List.take_succ_cons]
          exact List.mem_cons_of_mem _ hfr
      · intro a hout
        have hnf : ¬(nf ≤ a ∧ a < nf + 4096) := by
          refine hout nf ?_
          rw [hfree, List.length_cons, List.take_succ_cons]
          simp
        have h1 : s'.phys a = s1.phys a := by
          refine hc a (fun fr hfr => hout fr ?_)
          rw [hfree, List.length_cons, List.take_succ_cons]
          exact List.mem_cons_of_mem _ hfr
        rw [h1]
        show writeBytesP s.phys nf 4096 0 a = s.phys a
        simp [writeBytesP, hnf]
      · intro a h0
        refine hz a ?_
        show writeBytesP s.phys nf 4096 0 a = 0
        simp only [writeBytesP]
        split
        · rfl
        · exact h0

theorem pageListIncl_mem_iff {start last p : Nat} :
    p ∈ pageListIncl start last ↔
      ∃ i, i < (if last < start then 0 else (last - start) / 4096 + 1) ∧
        p = start + 4096 * i := by
  simp [pageListIncl, List.mem_map, List.mem_range, eq_comm]

theorem pageListIncl_nodup (start last : Nat) :
    (pageListIncl start last).Nodup := by
  unfold pageListIncl
  exact (List.nodup_range _).map (fun a b hab => by omega)

theorem mem_pageListIncl {start last p : Nat} (hs : 4096 ∣ start)
    (hp : 4096 ∣ p) (h1 : start ≤ p) (h2 : p ≤ last) :
    p ∈ pageListIncl start last := by
  rw [pageListIncl_mem_iff]
  refine ⟨(p - start) / 4096, ?_, by omega⟩
  rw [if_neg (by omega)]
  omega

theorem handleLoadSegment_eq (s : MState) (physBase bias : Nat)
    (seg : Segment) (hF : 0 < seg.fileSize) :
    handleLoadSegment s physBase bias seg =
      match mapPagesToFrames s (segFilePairs physBase bias seg)
          (segmentFlags seg) with
      | Except.error e => Except.error e
      | Except.ok s1 =>
          if seg.memSize > seg.fileSize then
            handleBssSection s1 (bias + seg.virtualAddr) seg.fileSize
              seg.memSize (segmentFlags seg)
          else Except.ok s1 := by
  rw [handleLoadSegment]
  have h1 : ¬(physBase + seg.offset + seg.fileSize = 0) := by omega
  have h2 : ¬(pageContaining (physBase + seg.offset + seg.fileSize - 1) <
      pageContaining (physBase + seg.offset)) := by
    unfold pageContaining
    omega
  simp only [h1, h2, if_false, segFilePairs]

theorem dvd_alignUp4K (n : Nat) : 4096 ∣ alignUp4K n := by
  unfold alignUp4K
  omega

theorem dvd_pageContaining (n : Nat) : 4096 ∣ pageContaining n := by
  unfold pageContaining
  omega

theorem handleBssSection_eq_unaligned (s : MState)
    (virtStart fileSize memSize : Nat) (flags : Flags)
    (h : (virtStart + fileSize) % 4096 ≠ 0) (nf : Nat) (s1 : MState)
    (hmk : makeMut s (pageContaining (virtStart + fileSize - 1)) =
      Except.ok (nf, s1)) :
    handleBssSection s virtStart fileSize memSize flags =
      zeroFreshPages
        { s1 with
          phys := writeBytesP s1.phys (nf + (virtStart + fileSize) % 4096)
            (4096 - (virtStart + fileSize) % 4096) 0 }
        (pageListIncl (alignUp4K (virtStart + fileSize))
          (pageContaining (virtStart + memSize))) flags := by
  simp only [handleBssSection]
  rw [if_pos h, hmk]

theorem handleBssSection_eq_aligned (s : MState)
    (virtStart fileSize memSize : Nat) (flags : Flags)
    (h : (virtStart + fileSize) % 4096 = 0) :
    handleBssSection s virtStart fileSize memSize flags =
      zeroFreshPages s
        (pageListIncl (alignUp4K (virtStart + fileSize))
          (pageContaining (virtStart + memSize))) flags := by
  simp only [handleBssSection]
  rw [if_neg (not_not_intro h)]

/-- C2: loading a segment with `mem_size > file_size` zero-fills exactly
the bss tail.  After a successful `handle_load_segment`, every byte at
segment offsets in `[file_size, mem_size)` reads as zero through the
mapped virtual range; physical memory outside the frames taken from the
allocator — in particular the whole file image, and with it every other
segment's file-backed data sharing the last partially-filled frame — is
unmodified; and when the bss start is not page-aligned the last file page
ends up remapped to a fresh allocator frame carrying the internal COPIED
flag, holding a byte-for-byte copy of the file bytes below the bss start
and zeroes from there to the end of the page. -/
theorem handleLoadSegment_bss_zero (s : MState) (physBase bias : Nat)
    (seg : Segment)
    (hFM : seg.fileSize < seg.memSize)
    (hF1 : 0 < seg.fileSize)
    (hcong : (physBase + seg.offset) % 4096 = (bias + seg.virtualAddr) % 4096)
    (hunm : ∀ p, 4096 ∣ p →
      pageContaining (bias + seg.virtualAddr) ≤ p →
      p ≤ pageContaining (bias + seg.virtualAddr + seg.memSize) →
      s.pt p = none)
    (hlen : 1 + (bssPages bias seg).length ≤ s.free.length)
    (hndf : s.free.Nodup)
    (haligned : ∀ fr ∈ s.free, 4096 ∣ fr) :
    ∃ s', handleLoadSegment s physBase bias seg = Except.ok s' ∧
      (∀ o, seg.fileSize ≤ o → o < seg.memSize →
        virtReadByte s' (bias + seg.virtualAddr + o) = some 0) ∧
      (∀ a, (∀ fr ∈ s.free, ¬(fr ≤ a ∧ a < fr + 4096)) →
        s'.phys a = s.phys a) ∧
      ((bias + seg.virtualAddr + seg.fileSize) % 4096 ≠ 0 →
        ∃ nf fl, nf ∈ s.free ∧
          s'.pt (pageContaining (bias + seg.virtualAddr + seg.fileSize - 1)) =
            some (nf, fl) ∧ COPIED fl = true ∧
          (∀ j, j < (bias + seg.virtualAddr + seg.fileSize) % 4096 →
            s'.phys (nf + j) =
              s.phys
                (pageContaining (physBase + seg.offset + seg.fileSize - 1) + j)) ∧
          (∀ j, (bias + seg.virtualAddr + seg.fileSize) % 4096 ≤ j →
            j < 4096 → s'.phys (nf + j) = 0)) := by
  -- the page list of the file-mapping loop
  have hfilePages : (segFilePairs physBase bias seg).map Prod.fst =
      (List.range ((pageContaining (physBase + seg.offset + seg.fileSize - 1) -
        pageContaining (physBase + seg.offset)) / 4096 + 1)).map
        (fun i => pageContaining (bias + seg.virtualAddr) + 4096 * i) := by
    simp [segFilePairs, List.map_map, Function.comp]
  have hnodupPages : ((segFilePairs physBase bias seg).map Prod.fst).Nodup := by
    rw [hfilePages]
    exact (List.nodup_range _).map (fun a b hab => by omega)
  -- every file page is within the hUnmapped window
  have hfileInWindow : ∀ i,
      i < (pageContaining (physBase + seg.offset + seg.fileSize - 1) -
        pageContaining (physBase + seg.offset)) / 4096 + 1 →
      4096 ∣ (pageContaining (bias + seg.virtualAddr) + 4096 * i) ∧
      pageContaining (bias + seg.virtualAddr) ≤
        pageContaining (bias + seg.virtualAddr) + 4096 * i ∧
      pageContaining (bias + seg.virtualAddr) + 4096 * i ≤
        pageContaining (bias + seg.virtualAddr + seg.fileSize - 1) := by
    intro i hi
    unfold pageContaining at *
    omega
  have hlastBelow : pageContaining (bias + seg.virtualAddr + seg.fileSize - 1) ≤
      pageContaining (bias + seg.virtualAddr + seg.memSize) := by
    unfold pageContaining
    omega
  obtain ⟨s1, hmap, hother1, hmapped1, hphys1, hfree1⟩ :=
    mapPagesToFrames_ok (segFilePairs physBase bias seg) (segmentFlags seg) s
      hnodupPages
      (by
        intro p hp
        rw [hfilePages] at hp
        simp only [List.mem_map, List.mem_range] at hp
        obtain ⟨i, hi, rfl⟩ := hp
        obtain ⟨d1, d2, d3⟩ := hfileInWindow i hi
        exact hunm _ d1 d2 (le_trans d3 hlastBelow))
  have hrun : handleLoadSegment s physBase bias seg =
      handleBssSection s1 (bias + seg.virtualAddr) seg.fileSize seg.memSize
        (segmentFlags seg) := by
    rw [handleLoadSegment_eq s physBase bias seg hF1, hmap]
    exact if_pos hFM
  -- the last file page is mapped to the last file frame
  have hlastmem : (pageContaining (bias + seg.virtualAddr + seg.fileSize - 1),
      pageContaining (physBase + seg.offset + seg.fileSize - 1)) ∈
      segFilePairs physBase bias seg := by
    unfold segFilePairs
    rw [List.mem_map]
    refine ⟨(pageContaining (physBase + seg.offset + seg.fileSize - 1) -
      pageContaining (physBase + seg.offset)) / 4096, ?_, ?_⟩
    · rw [List.mem_range]
      omega
    · rw [Prod.mk.injEq]
      constructor
      · unfold pageContaining
        omega
      · unfold pageContaining
        omega
  have hs1last : s1.pt (pageContaining (bias + seg.virtualAddr + seg.fileSize - 1)) =
      some (pageContaining (physBase + seg.offset + seg.fileSize - 1),
        withUser (segmentFlags seg)) := hmapped1 _ hlastmem
  -- bss pages lie beyond the last file page and inside the window
  have hbssBeyond : ∀ p ∈ bssPages bias seg,
      pageContaining (bias + seg.virtualAddr + seg.fileSize - 1) + 4096 ≤ p ∧
      4096 ∣ p ∧
      pageContaining (bias + seg.virtualAddr) ≤ p ∧
      p ≤ pageContaining (bias + seg.virtualAddr + seg.memSize) := by
    intro p hp
    rw [bssPages, pageListIncl_mem_iff] at hp
    obtain ⟨i, hi, rfl⟩ := hp
    by_cases hlt : pageContaining (bias + seg.virtualAddr + seg.memSize) <
        alignUp4K (bias + seg.virtualAddr + seg.fileSize)
    · rw [if_pos hlt] at hi
      omega
    · rw [if_neg hlt] at hi
      unfold pageContaining alignUp4K at *
      omega
  have hbssNotFile : ∀ p ∈ bssPages bias seg,
      p ∉ (segFilePairs physBase bias seg).map Prod.fst := by
    intro p hp hpm
    obtain ⟨hge, _, _, _⟩ := hbssBeyond p hp
    rw [hfilePages] at hpm
    simp only [List.mem_map, List.mem_range] at hpm
    obtain ⟨i, hi, rfl⟩ := hpm
    obtain ⟨_, _, d3⟩ := hfileInWindow i hi
    omega
  have hbssUnm1 : ∀ p ∈ bssPages bias seg, s1.pt p = none := by
    intro p hp
    obtain ⟨_, d1, d2, d3⟩ := hbssBeyond p hp
    rw [hother1 p (hbssNotFile p hp)]
    exact hunm p d1 d2 d3
  have hbssNodup : (bssPages bias seg).Nodup := pageListIncl_nodup _ _
  have hlastNotBss : pageContaining (bias + seg.virtualAddr + seg.fileSize - 1) ∉
      bssPages bias seg := by
    intro hmem
    obtain ⟨hge, _, _, _⟩ := hbssBeyond _ hmem
    omega
  by_cases hdbz : (bias + seg.virtualAddr + seg.fileSize) % 4096 = 0
  · -- aligned bss start: no private copy, only fresh zero frames
    obtain ⟨s', hzf, hdrop, haZ, hbZ, hcZ, hzZ⟩ :=
      zeroFreshPages_ok (bssPages bias seg) (segmentFlags seg) s1 hbssNodup
        hbssUnm1
        (by rw [hfree1]; omega)
    refine ⟨s', ?_, ?_, ?_, fun h => absurd hdbz h⟩
    · rw [hrun, handleBssSection_eq_aligned _ _ _ _ _ hdbz]
      exact hzf
    · intro o ho1 ho2
      have hmem : pageContaining (bias + seg.virtualAddr + o) ∈
          bssPages bias seg := by
        rw [bssPages]
        refine mem_pageListIncl (dvd_alignUp4K _) (dvd_pageContaining _) ?_ ?_
        · unfold pageContaining alignUp4K
          omega
        · unfold pageContaining
          omega
      obtain ⟨fr, hfr, hptA, hzeroA⟩ := hbZ _ hmem
      rw [virtReadByte, hptA]
      exact congrArg some (hzeroA _ (by omega))
    · intro a hout
      have h1 : s'.phys a = s1.phys a := by
        refine hcZ a (fun fr hfr => ?_)
        refine hout fr ?_
        rw [← hfree1]
        exact List.take_subset _ _ hfr
      rw [h1, hphys1]
  · -- unaligned bss start: private duplicate of the last file page first
    obtain ⟨nf, rest, hfree2⟩ : ∃ nf rest, s.free = nf :: rest := by
      cases hf : s.free with
      | nil => rw [hf] at hlen; simp at hlen
      | cons a b => exact ⟨a, b, rfl⟩
    have hnfal : 4096 ∣ nf := haligned nf (by rw [hfree2]; simp)
    have hnfnotrest : nf ∉ rest := by
      rw [hfree2] at hndf
      exact (List.nodup_cons.mp hndf).1
    have hsfree1 : s1.free = nf :: rest := by rw [hfree1, hfree2]
    obtain ⟨s2, hmk, hpt2, hother2, hfree2', hcopy2, houtcopy2⟩ :=
      makeMut_copy_ok hs1last rfl hsfree1
    have hdbz' : (bias + seg.virtualAddr + seg.fileSize) % 4096 ≠ 0 := hdbz
    have hrun2 := handleBssSection_eq_unaligned s1 (bias + seg.virtualAddr)
      seg.fileSize seg.memSize (segmentFlags seg) hdbz' nf s2 hmk
    obtain ⟨s', hzf, hdrop, haZ, hbZ, hcZ, hzZ⟩ :=
      zeroFreshPages_ok (bssPages bias seg) (segmentFlags seg)
        { s2 with
          phys := writeBytesP s2.phys
            (nf + (bias + seg.virtualAddr + seg.fileSize) % 4096)
            (4096 - (bias + seg.virtualAddr + seg.fileSize) % 4096) 0 }
        hbssNodup
        (by
          intro p hp
          show s2.pt p = none
          obtain ⟨hge, d1, d2, d3⟩ := hbssBeyond p hp
          rw [hother2 p (by omega), hother1 p (hbssNotFile p hp)]
          exact hunm p d1 d2 d3)
        (by
          show (bssPages bias seg).length ≤ s2.free.length
          rw [hfree2']
          rw [hfree2] at hlen
          simp at hlen
          omega)
    have hptlast : s'.pt
        (pageContaining (bias + seg.virtualAddr + seg.fileSize - 1)) =
        some (nf, withUser { segmentFlags seg with copied := true }) := by
      rw [haZ _ hlastNotBss]
      exact hpt2
    -- bytes of the copied frame: below the bss start they are file bytes,
    -- from the bss start on they are zero
    have hcopylow : ∀ j, j < (bias + seg.virtualAddr + seg.fileSize) % 4096 →
        s'.phys (nf + j) =
          s.phys (pageContaining (physBase + seg.offset + seg.fileSize - 1) + j) := by
      intro j hj
      have hstep : s'.phys (nf + j) =
          writeBytesP s2.phys
            (nf + (bias + seg.virtualAddr + seg.fileSize) % 4096)
            (4096 - (bias + seg.virtualAddr + seg.fileSize) % 4096) 0
            (nf + j) := by
        refine hcZ (nf + j) (fun fr hfr => ?_)
        have hfr0 : fr ∈ List.take (bssPages bias seg).length s2.free := hfr
        rw [hfree2'] at hfr0
        have hfr' : fr ∈ rest := List.take_subset _ _ hfr0
        have hfral : 4096 ∣ fr := haligned fr (by rw [hfree2]; simp [hfr'])
        have hfrne : fr ≠ nf := fun hh => hnfnotrest (hh ▸ hfr')
        omega
      rw [hstep]
      have hcond : ¬(nf + (bias + seg.virtualAddr + seg.fileSize) % 4096 ≤
          nf + j ∧ nf + j <
          nf + (bias + seg.virtualAddr + seg.fileSize) % 4096 +
            (4096 - (bias + seg.virtualAddr + seg.fileSize) % 4096)) := by
        omega
      show (if _ then _ else s2.phys (nf + j)) = _
      rw [if_neg hcond]
      rw [hcopy2 (nf + j) (by omega) (by omega)]
      rw [hphys1]
      congr 1
      omega
    have hcopyhigh : ∀ j,
        (bias + seg.virtualAddr + seg.fileSize) % 4096 ≤ j → j < 4096 →
        s'.phys (nf + j) = 0 := by
      intro j hj1 hj2
      refine hzZ (nf + j) ?_
      show writeBytesP s2.phys
          (nf + (bias + seg.virtualAddr + seg.fileSize) % 4096)
          (4096 - (bias + seg.virtualAddr + seg.fileSize) % 4096) 0
          (nf + j) = 0
      simp only [writeBytesP]
      rw [if_pos (by omega)]
    refine ⟨s', ?_, ?_, ?_, ?_⟩
    · rw [hrun, hrun2]
      exact hzf
    · intro o ho1 ho2
      by_cases hA : bias + seg.virtualAddr + o <
          alignUp4K (bias + seg.virtualAddr + seg.fileSize)
      · have hpage : pageContaining (bias + seg.virtualAddr + o) =
            pageContaining (bias + seg.virtualAddr + seg.fileSize - 1) := by
          unfold pageContaining alignUp4K at *
          omega
        rw [virtReadByte, hpage, hptlast]
        refine congrArg some (hcopyhigh _ ?_ ?_)
        · unfold pageContaining alignUp4K at *
          omega
        · omega
      · have hmem : pageContaining (bias + seg.virtualAddr + o) ∈
            bssPages bias seg := by
          rw [bssPages]
          refine mem_pageListIncl (dvd_alignUp4K _) (dvd_pageContaining _)
            ?_ ?_
          · unfold pageContaining alignUp4K at hA ⊢
            omega
          · unfold pageContaining
            omega
        obtain ⟨fr, hfr, hptA, hzeroA⟩ := hbZ _ hmem
        rw [virtReadByte, hptA]
        exact congrArg some (hzeroA _ (by omega))
    · intro a hout
      have h1 : s'.phys a =
          writeBytesP s2.phys
            (nf + (bias + seg.virtualAddr + seg.fileSize) % 4096)
            (4096 - (bias + seg.virtualAddr + seg.fileSize) % 4096) 0 a := by
        refine hcZ a (fun fr hfr => ?_)
        have hfr0 : fr ∈ List.take (bssPages bias seg).length s2.free := hfr
        rw [hfree2'] at hfr0
        refine hout fr ?_
        rw [hfree2]
        exact List.mem_cons_of_mem _ (List.take_subset _ _ hfr0)
      have hnf : ¬(nf ≤ a ∧ a < nf + 4096) :=
        hout nf (by rw [hfree2]; simp)
      rw [h1]
      show (if _ then _ else s2.phys a) = _
      rw [if_neg (by omega), houtcopy2 a hnf, hphys1]
    · intro _
      exact ⟨nf, withUser { segmentFlags seg with copied := true },
        by rw [hfree2]; simp, hptlast, rfl, hcopylow, hcopyhigh⟩

theorem handleLoadSegment_bss_zero_witness :
    (handleLoadSegment ⟨fun _ => none, [], fun a => a % 251, [12288, 16384]⟩
        8192 0 ⟨0, 0, 100, 5000, true, false⟩).map
        (fun st => virtReadByte st 100) =
      Except.ok (some 0) := by
  obtain ⟨s', hok, hzero, _, _⟩ := handleLoadSegment_bss_zero
    ⟨fun _ => none, [], fun a => a % 251, [12288, 16384]⟩ 8192 0
    ⟨0, 0, 100, 5000, true, false⟩
    (by decide) (by decide) (by decide)
    (fun p _ _ _ => rfl) (by decide) (by decide) (by decide)
  rw [hok]
  exact congrArg Except.ok (hzero 100 (by decide) (by decide))

/-! ### C3: RELATIVE relocations -/

theorem writeU64_read_byte (d : Nat → Nat) (addr v i : Nat) (hi : i < 8) :
    writeU64LE d addr v (addr + i) = v / 2 ^ (8 * i) % 256 := by
  unfold writeU64LE
  rw [if_pos (by omega)]
  have h : addr + i - addr = i := by omega
  rw [h]

theorem writeU64_outside (d : Nat → Nat) (addr v a : Nat)
    (h : ¬(addr ≤ a ∧ a < addr + 8)) : writeU64LE d addr v a = d a := by
  unfold writeU64LE
  rw [if_neg h]

/-- Core of the C3 success path: applying a single `R_AMD64_RELATIVE`
entry at offset X with addend A under load bias B writes the 8 bytes
`B + A` at virtual address `B + X`, through a freshly allocated private
frame, leaving the rest of physical memory untouched. -/
theorem applyRela_relative_ok
    (s : MState) (loadSegs : List Segment) (bias X A oldF : Nat) (fl : Flags)
    (nf : Nat) (rest : List Nat)
    (hinload : checkIsInLoad loadSegs X = true)
    (hBX : bias + X < 2 ^ 64) (hBA : bias + A < 2 ^ 64)
    (halign : (bias + X) % 8 = 0)
    (hpt : s.pt (pageContaining (bias + X)) = some (oldF, fl))
    (hcop : COPIED fl = false) (hfree : s.free = nf :: rest) :
    ∃ s', applyRela s loadSegs bias ⟨X, 0, 8, A⟩ = Except.ok s' ∧
      (∀ i, i < 8 → virtReadByte s' (bias + X + i) =
        some ((bias + A) / 2 ^ (8 * i) % 256)) ∧
      (∃ fl', s'.pt (pageContaining (bias + X)) = some (nf, fl') ∧
        COPIED fl' = true) ∧
      (∀ q, q ≠ pageContaining (bias + X) → s'.pt q = s.pt q) ∧
      (∀ a, ¬(nf ≤ a ∧ a < nf + 4096) → s'.phys a = s.phys a) := by
  have haddr : (bias + X) % 2 ^ 64 = bias + X := Nat.mod_eq_of_lt hBX
  obtain ⟨s2, hmk, hpt2, hother2, hfree2, hcopy2, houtcopy2⟩ :=
    makeMut_copy_ok hpt hcop hfree
  have hrun : applyRela s loadSegs bias ⟨X, 0, 8, A⟩ =
      Except.ok { s2 with
        phys := writeU64LE s2.phys
          (nf + ((bias + X) - pageContaining (bias + X))) (bias + A) } := by
    simp only [applyRela, haddr]
    rw [if_true, if_pos hinload, if_pos hBA, hmk]
    rw [if_neg (not_not_intro halign)]
    rfl
  have hoip : (bias + X) - pageContaining (bias + X) = (bias + X) % 4096 := by
    unfold pageContaining
    omega
  have hoip_le : (bias + X) % 4096 ≤ 4088 := by omega
  refine ⟨_, hrun, ?_, ?_, ?_, ?_⟩
  · intro i hi
    have hpage : pageContaining (bias + X + i) = pageContaining (bias + X) := by
      unfold pageContaining
      omega
    have hargs : nf + (bias + X + i) % 4096 =
        (nf + ((bias + X) - pageContaining (bias + X))) + i := by
      unfold pageContaining
      omega
    simp only [virtReadByte, hpage]
    show (match s2.pt (pageContaining (bias + X)) with
      | some (f, _) => some
          (writeU64LE s2.phys
            (nf + ((bias + X) - pageContaining (bias + X))) (bias + A)
            (f + (bias + X + i) % 4096))
      | none => none) = _
    rw [hpt2]
    show some (writeU64LE s2.phys
      (nf + ((bias + X) - pageContaining (bias + X))) (bias + A)
      (nf + (bias + X + i) % 4096)) = _
    rw [hargs, writeU64_read_byte _ _ _ _ hi]
  · exact ⟨withUser { fl with copied := true }, hpt2, rfl⟩
  · intro q hq
    exact hother2 q hq
  · intro a ha
    show writeU64LE s2.phys
      (nf + ((bias + X) - pageContaining (bias + X))) (bias + A) a = s.phys a
    rw [writeU64_outside _ _ _ _ (by omega), houtcopy2 a ha]

/-- C3: a `DYNAMIC` segment holding exactly one relocation table entry of
type `R_AMD64_RELATIVE` at offset X with addend A, loaded with bias B,
ends with the little-endian u64 `B + A` readable at virtual address
`B + X`, written into a privately copied frame while the shared file
image stays untouched; any relocation entry with a nonzero symbol-table
index, and any entry of another type, makes the load fail with the
loader's fatal error. -/
theorem dynamic_relative_relocation
    (s : MState) (loadSegs : List Segment) (bias physBase fileLen : Nat)
    (dyn : List DynEntry) (tOff X A oldF : Nat) (fl : Flags)
    (nf : Nat) (rest : List Nat)
    (hscan : scanDynamic dyn none none none =
      Except.ok (some tOff, some 24, some 24))
    (hbound : tOff + 24 ≤ fileLen)
    (hparse : parseRela s.phys (physBase + tOff) = ⟨X, 0, 8, A⟩)
    (hinload : checkIsInLoad loadSegs X = true)
    (hBX : bias + X < 2 ^ 64) (hBA : bias + A < 2 ^ 64)
    (halign : (bias + X) % 8 = 0)
    (hpt : s.pt (pageContaining (bias + X)) = some (oldF, fl))
    (hcop : COPIED fl = false) (hfree : s.free = nf :: rest) :
    (∃ s', handleDynamicSegment s loadSegs bias physBase fileLen dyn =
        Except.ok s' ∧
      (∀ i, i < 8 → virtReadByte s' (bias + X + i) =
        some ((bias + A) / 2 ^ (8 * i) % 256)) ∧
      (∃ fl', s'.pt (pageContaining (bias + X)) = some (nf, fl') ∧
        COPIED fl' = true) ∧
      (∀ a, ¬(nf ≤ a ∧ a < nf + 4096) → s'.phys a = s.phys a)) ∧
    (∀ (s0 : MState) (r : Rela), r.symIdx ≠ 0 →
      applyRela s0 loadSegs bias r =
        Except.error "relocations using the symbol table are not supported") ∧
    (∀ (s0 : MState) (r : Rela), r.symIdx = 0 → r.relType ≠ 8 →
      applyRela s0 loadSegs bias r =
        Except.error "relocation type not supported") := by
  refine ⟨?_, ?_, ?_⟩
  · obtain ⟨s', hap, hread, hfl, _, hout⟩ :=
      applyRela_relative_ok s loadSegs bias X A oldF fl nf rest hinload hBX
        hBA halign hpt hcop hfree
    refine ⟨s', ?_, hread, hfl, hout⟩
    rw [handleDynamicSegment, hscan]
    show (if (24 : Nat) = 0 then Except.error "attempt to divide by zero"
      else if tOff + 24 * (24 / 24) ≤ fileLen then
        applyRelas s loadSegs bias
          ((List.range (24 / 24)).map (fun i => physBase + tOff + 24 * i))
      else Except.error "the relocation table must end in the elf file") =
      Except.ok s'
    rw [if_neg (by omega), if_pos (by omega)]
    show applyRelas s loadSegs bias [physBase + tOff + 24 * 0] = Except.ok s'
    rw [applyRelas]
    show (match applyRela s loadSegs bias
        (parseRela s.phys (physBase + tOff + 24 * 0)) with
      | Except.error e => Except.error e
      | Except.ok s1 => applyRelas s1 loadSegs bias []) = Except.ok s'
    rw [show physBase + tOff + 24 * 0 = physBase + tOff by omega, hparse, hap]
    rfl
  · intro s0 r hsym
    rw [applyRela, if_pos hsym]
  · intro s0 r hsym hty
    rw [applyRela, if_neg (not_not_intro hsym), if_neg hty]

theorem dynamic_relative_relocation_witness :
    (handleDynamicSegment
        ⟨fun p => if p = 0 then some (8192, ⟨true, true, true, false, false⟩)
          else none, [],
          writeU64LE (writeU64LE (writeU64LE (fun _ => 7) 8256 8) 8264 8)
            8272 100, [4096]⟩
        [⟨0, 0, 16, 16, true, false⟩] 0 8192 88
        [DynEntry.rela 64, DynEntry.relaSize 24, DynEntry.relaEnt 24]).map
        (fun st => virtReadByte st 8) =
      Except.ok (some 100) := by
  obtain ⟨⟨s', hok, hread, _, _⟩, _, _⟩ :=
    dynamic_relative_relocation
      ⟨fun p => if p = 0 then some (8192, ⟨true, true, true, false, false⟩)
        else none, [],
        writeU64LE (writeU64LE (writeU64LE (fun _ => 7) 8256 8) 8264 8)
          8272 100, [4096]⟩
      [⟨0, 0, 16, 16, true, false⟩] 0 8192 88
      [DynEntry.rela 64, DynEntry.relaSize 24, DynEntry.relaEnt 24]
      64 8 100 8192 ⟨true, true, true, false, false⟩ 4096 []
      rfl (by decide) (by decide) (by decide) (by decide) (by decide)
      (by decide) rfl rfl rfl
  rw [hok]
  exact congrArg Except.ok (hread 0 (by decide))

/-! ### C1: program-stack exit path -/

/-- C1 (code divergence, evaluated at the failing input): with P1 then P2
on the program stack and both programs' pages live in the shared page
tables, `current_program_exit` does not unmap any of P2's pages —
`pop_program` only drops the `UserProgram` record ("TODO reclaim memory")
and never touches the mapper, so P2's page at `0x1000` stays translatable
— and `restore_context` then fails (`map_to` returns `PageAlreadyMapped`
for P1's still-mapped page, and the source unwraps that error into a
panic) instead of succeeding as the claim requires.  Only the final
clause of the claim holds: exiting with no program left below transitions
to the shutdown state. -/
theorem programStack_exit_divergence :
    currentProgramExit
        ⟨[⟨[(0, (8192, ⟨true, true, true, false, false⟩))], 11, false, false⟩,
          ⟨[(4096, (12288, ⟨true, true, true, false, false⟩))], 22, false,
            false⟩], 0⟩
        ⟨fun p =>
          if p = 0 then some (8192, ⟨true, true, true, false, false⟩)
          else if p = 4096 then
            some (12288, ⟨true, true, true, false, false⟩)
          else none, [], fun _ => 0, []⟩ =
      Except.error "restore_context failed" ∧
    MState.pt
        ⟨fun p =>
          if p = 0 then some (8192, ⟨true, true, true, false, false⟩)
          else if p = 4096 then
            some (12288, ⟨true, true, true, false, false⟩)
          else none, [], fun _ => 0, []⟩ 4096 =
      some (12288, ⟨true, true, true, false, false⟩) ∧
    (currentProgramExit
        ⟨[⟨[(0, (8192, ⟨true, true, true, false, false⟩))], 11, false,
          false⟩], 0⟩
        ⟨fun p =>
          if p = 0 then some (8192, ⟨true, true, true, false, false⟩)
          else if p = 4096 then
            some (12288, ⟨true, true, true, false, false⟩)
          else none, [], fun _ => 0, []⟩).map
        (fun r => (r.1.programStack.length, r.2.2)) =
      Except.ok (0, ExitOutcome.shutdown) :=
  ⟨rfl, rfl, rfl⟩

